import Mathlib

/-!
Verification of the `LightningTreeNode` component of CuraEngine's lightning
infill (src/include/infill/LightningTreeNode.h).  The header declares the tree
node data model and its operations; the method bodies are not part of the
available sources, so each operation below is modelled from the specification
document, staying as close as possible to its wording.  Coordinates are 64-bit
integers (`coord_t`) in the source; we model them as `Int` (overflow is never
approached by the quantities involved here) and Euclidean length as the
integer (floor) square root of the squared length, matching the integer
`vSize` used throughout CuraEngine.
-/

namespace Lightning

/-- A 2D point with integer (`coord_t`) coordinates, modelling `Point2LL`. -/
structure Point where
  x : Int
  y : Int
deriving DecidableEq, Repr

/-- Squared Euclidean distance between two points (`vSize2` in the source). -/
def distSq (a b : Point) : Int :=
  (a.x - b.x) ^ 2 + (a.y - b.y) ^ 2

/-- Fuel-driven integer square root (the fuel bounds the recursion depth;
`n` units of fuel are always enough since the argument quarters each step). -/
def isqrtFuel : Nat → Nat → Nat
  | 0, n => n
  | fuel + 1, n =>
    if n < 2 then n
    else
      let r := 2 * isqrtFuel fuel (n / 4)
      if (r + 1) * (r + 1) ≤ n then r + 1 else r

/-- Integer (floor) square root. -/
def isqrt (n : Nat) : Nat :=
  isqrtFuel n n

/-- Integer Euclidean distance (`vSize`): floor square root of `distSq`. -/
def dist (a b : Point) : Nat :=
  isqrt (distSq a b).toNat

/-!
## Metric tree model for pruning

`prune` (declared at LightningTreeNode.h:227-230, body not in the available
sources) reads and writes node locations only through rectilinear distances
along branches, so for the pruning claims we model a subtree by the lengths of
its edges: a node is a list of (edge length, child subtree) pairs.
-/

/-- A tree recording, for each child, the length of the connecting edge.
Modelled from the spec: the metric content of a `LightningTreeNode` subtree as
seen by `prune`. -/
inductive PTree where
  | node (children : List (Nat × PTree))

mutual

/-- Modelled from the spec: `LightningTreeNode::prune(distance)` (declaration
and doc in LightningTreeNode.h:227-230, body missing from the sources).
Removes material leaf-inward: each child branch is pruned independently with
the same budget; a fully consumed branch is deleted, a branch longer than the
remaining budget has its leaf repositioned inward along the branch by exactly
the remaining budget.  Returns the pruned tree and the rectilinear length
pruned.  The returned length is the maximum over the branches of the length
pruned along that branch: the spec's signalling contract (a return value below
the requested distance means the whole tree is gone) forces per-branch, not
summed, accounting. -/
def prune (d : Nat) : PTree → PTree × Nat
  | .node cs =>
    let r := pruneChildren d cs
    (.node r.1, r.2)

/-- Modelled from the spec: the per-child loop of `prune`.  For each child:
if the child's own pruning already consumed the budget the branch is kept as
pruned; otherwise, if the remaining branch (pruned-below plus edge length)
fits in the budget the child is removed entirely; otherwise the edge is
shortened by exactly the remaining budget (the leaf is repositioned inward)
and pruning stops on that branch. -/
def pruneChildren (d : Nat) : List (Nat × PTree) → List (Nat × PTree) × Nat
  | [] => ([], 0)
  | (len, c) :: rest =>
    let r := pruneChildren d rest
    let pc := prune d c
    if d ≤ pc.2 then
      ((len, pc.1) :: r.1, max pc.2 r.2)
    else if pc.2 + len ≤ d then
      (r.1, max (pc.2 + len) r.2)
    else
      ((len - (d - pc.2), pc.1) :: r.1, max d r.2)

end

mutual

/-- Total rectilinear length of a metric tree: the sum of all edge lengths. -/
def totalLen : PTree → Nat
  | .node cs => totalLenChildren cs

/-- Sum of edge lengths of a list of branches. -/
def totalLenChildren : List (Nat × PTree) → Nat
  | [] => 0
  | (len, c) :: rest => len + totalLen c + totalLenChildren rest

end

/-!
## Geometric tree model

A `LightningTreeNode` subtree as a value: a location (`p_`, the position the
node represents, LightningTreeNode.h:266) plus the owned, order-relevant list
of children subtrees (`children_`, LightningTreeNode.h:268).  The upward
`parent_` link and `is_root_` flag are representation details of the pointer
structure; they are modelled separately by the node store below.
-/

/-- A subtree: node location and list of child subtrees. -/
inductive LTree where
  | node (loc : Point) (children : List LTree)

/-- The location of the root node of a subtree. -/
def LTree.locOf : LTree → Point
  | .node l _ => l

/-- The children of the root node of a subtree. -/
def LTree.childrenOf : LTree → List LTree
  | .node _ cs => cs

mutual

/-- Multiset of the locations of all nodes in a subtree. -/
def vertsM : LTree → Multiset Point
  | .node l cs => l ::ₘ vertsL cs

/-- Multiset of the locations of all nodes of a list of subtrees. -/
def vertsL : List LTree → Multiset Point
  | [] => 0
  | c :: cs => vertsM c + vertsL cs

end

mutual

/-- Multiset of the directed edges of a subtree, each edge recorded as
(child location, parent location). -/
def edgesM : LTree → Multiset (Point × Point)
  | .node l cs => edgesL l cs

/-- Directed edges of a list of subtrees hanging under a parent location. -/
def edgesL (p : Point) : List LTree → Multiset (Point × Point)
  | [] => 0
  | c :: cs => (c.locOf, p) ::ₘ (edgesM c + edgesL p cs)

end

/-- Lexicographic order test on points, used to normalise undirected edges. -/
def pointLE (a b : Point) : Bool :=
  a.x < b.x || (a.x = b.x && a.y ≤ b.y)

/-- An unordered pair of points, normalised by `pointLE`. -/
def upair (a b : Point) : Point × Point :=
  if pointLE a b then (a, b) else (b, a)

mutual

/-- Multiset of the undirected edges of a subtree (normalised pairs). -/
def uedgesM : LTree → Multiset (Point × Point)
  | .node l cs => uedgesL l cs

/-- Undirected edges of a list of subtrees hanging under a parent location. -/
def uedgesL (p : Point) : List LTree → Multiset (Point × Point)
  | [] => 0
  | c :: cs => upair c.locOf p ::ₘ (uedgesM c + uedgesL p cs)

end

mutual

/-- Multiset of the locations of the leaves (childless nodes) of a subtree. -/
def leafLocsM : LTree → Multiset Point
  | .node l [] => {l}
  | .node _ (c :: cs) => leafLocsM c + leafLocsL cs

/-- Leaf locations of a list of subtrees. -/
def leafLocsL : List LTree → Multiset Point
  | [] => 0
  | c :: cs => leafLocsM c + leafLocsL cs

end

mutual

/-- Multiset of the locations of the junction nodes (more than one child)
strictly inside a subtree; the overall root is accounted separately, per the
spec's glossary. -/
def junctionLocsM : LTree → Multiset Point
  | .node l cs => (if 2 ≤ cs.length then {l} else 0) + junctionLocsL cs

/-- Junction locations of a list of subtrees. -/
def junctionLocsL : List LTree → Multiset Point
  | [] => 0
  | c :: cs => junctionLocsM c + junctionLocsL cs

end

mutual

/-- Number of edges of a subtree. -/
def edgeCount : LTree → Nat
  | .node _ cs => cs.length + edgeCountL cs

/-- Combined number of edges of a list of subtrees (their connecting edges
to the common parent not included). -/
def edgeCountL : List LTree → Nat
  | [] => 0
  | c :: cs => edgeCount c + edgeCountL cs

end

mutual

/-- Number of leaves (childless nodes) of a subtree. -/
def leafCount : LTree → Nat
  | .node _ [] => 1
  | .node _ (c :: cs) => leafCountL (c :: cs)

/-- Combined number of leaves of a list of subtrees. -/
def leafCountL : List LTree → Nat
  | [] => 0
  | c :: cs => leafCount c + leafCountL cs

end

mutual

/-- All subtrees of a subtree, itself included. -/
def subtreesList : LTree → List LTree
  | .node l cs => LTree.node l cs :: subtreesListL cs

/-- All subtrees of a list of subtrees. -/
def subtreesListL : List LTree → List LTree
  | [] => []
  | c :: cs => subtreesList c ++ subtreesListL cs

end

mutual

/-- Modelled from the spec: `LightningTreeNode::closestNode(loc)` (declared at
LightningTreeNode.h:164-169, body missing from the sources).  Returns the node
of this subtree (itself included) whose location has minimum Euclidean
distance to `p`; ties are broken deterministically by keeping the earlier
node in traversal order (strict improvement only). -/
def closestNode (p : Point) : LTree → LTree
  | .node l cs => closestL p (.node l cs) cs

/-- The fold over children of `closestNode`: keep the best candidate so far,
replacing it only on a strictly smaller squared distance. -/
def closestL (p : Point) (best : LTree) : List LTree → LTree
  | [] => best
  | c :: cs =>
    let cand := closestNode p c
    closestL p (if distSq cand.locOf p < distSq best.locOf p then cand else best) cs

end

/-- Modelled from the spec: the valence boost of the weighted-distance
heuristic.  The exact discount curve is tunable (spec design notes); we fix a
concrete curve satisfying the stated contract, monotonically non-decreasing in
the branching degree (capped at 4) and scaled by the supporting radius. -/
def valenceBoost (degree : Nat) (supportingRadius : Nat) : Int :=
  (min degree 4) * (supportingRadius + 1)

/-- Modelled from the spec: `LightningTreeNode::getWeightedDistance` (declared
at LightningTreeNode.h:132-142, body missing from the sources).  The base term
is the Euclidean distance from the unsupported location to the node's
location, discounted by the valence boost of the node's branching degree. -/
def getWeightedDistance (t : LTree) (unsupportedLocation : Point)
    (supportingRadius : Nat) : Int :=
  (dist t.locOf unsupportedLocation : Int) -
    valenceBoost t.childrenOf.length supportingRadius

/-!
## Straightening
-/

/-- The point at parameter `num / den` on the segment from `a` to `b`,
computed with integer division (`den` is clamped to at least 1, as in the
source's interpolation). -/
def interpPoint (a b : Point) (num den : Nat) : Point :=
  ⟨a.x + (b.x - a.x) * num / max den 1, a.y + (b.y - a.y) * num / max den 1⟩

/-- Move `src` toward `dest`, by at most `mag` length units: if `dest` is
within `mag` of `src` the move is completed, otherwise `src` travels `mag`
units along the segment toward `dest`. -/
def moveToward (src dest : Point) (mag : Nat) : Point :=
  if dist src dest ≤ mag then dest else interpPoint src dest mag (dist src dest)

/-- Twice the signed area of the triangle `o a b`; zero iff the three points
are colinear. -/
def cross2 (o a b : Point) : Int :=
  (a.x - o.x) * (b.y - o.y) - (a.y - o.y) * (b.x - o.x)

/-- Modelled from the spec: the colinear-removal test of `straighten`.  A node
at `l` on the run between `jAbove` and `jBelow` may be dropped when its
perpendicular deviation from the chord is smaller than
`maxRemoveColinearDist` and the compound segment is no longer than that bound
(the header documents the parameter as the maximum length of a segment from
which a colinear point may be removed). -/
def removeColinear (maxRemoveColinearDist : Nat) (jAbove jBelow l : Point)
    (total : Nat) : Bool :=
  distSq jAbove jBelow != 0 &&
    cross2 jAbove jBelow l ^ 2 <
      (maxRemoveColinearDist : Int) ^ 2 * distSq jAbove jBelow &&
    total ≤ maxRemoveColinearDist

mutual

/-- Modelled from the spec: the recursive part of
`LightningTreeNode::straighten` (declared at LightningTreeNode.h:219-225, body
missing from the sources).  `jAbove` is the last junction seen above, `acc`
the rectilinear distance from it to this node.  A single-child node is an
interior point of a run: the run below is straightened first, yielding the
junction below; the node is then moved toward its interpolated position on
the chord between the two junctions, by at most `mag`, and dropped entirely
when the colinear-removal test fires.  A leaf or junction ends the run and is
returned as the junction below. -/
def straightenRun (mag rem : Nat) (jAbove : Point) (acc : Nat) :
    LTree → LTree × (Nat × Point)
  | .node l [c] =>
    let r := straightenRun mag rem jAbove (acc + dist l c.locOf) c
    if distSq jAbove r.2.2 = 0 then
      (.node l [r.1], r.2)
    else
      let destination := interpPoint jAbove r.2.2 acc r.2.1
      let newLoc := moveToward l destination mag
      if removeColinear rem jAbove r.2.2 newLoc r.2.1 then
        (r.1, r.2)
      else
        (.node newLoc [r.1], r.2)
  | .node l [] => (.node l [], (acc, l))
  | .node l (c₁ :: c₂ :: cs) =>
    (.node l (straightenFromJunction mag rem l (c₁ :: c₂ :: cs)), (acc, l))

/-- Modelled from the spec: a junction (or the root) restarts a straightening
run down each of its children, with itself as the junction above and the
accumulated distance reset to the first edge's length. -/
def straightenFromJunction (mag rem : Nat) (jloc : Point) :
    List LTree → List LTree
  | [] => []
  | c :: cs =>
    (straightenRun mag rem jloc (dist jloc c.locOf) c).1 ::
      straightenFromJunction mag rem jloc cs

end

/-- Modelled from the spec: `LightningTreeNode::straighten(magnitude,
max_remove_colinear_dist)` (declared at LightningTreeNode.h:211-217, body
missing from the sources).  The overall root counts as a junction, so it
anchors a run down each of its children and is itself never moved. -/
def straighten (mag rem : Nat) (t : LTree) : LTree :=
  .node t.locOf (straightenFromJunction mag rem t.locOf t.childrenOf)

/-!
## Geometric pruning (used by the propagation pipeline)

The same per-branch budget recursion as the metric `prune` above, acting on
located trees: edge lengths are Euclidean distances between node locations,
and repositioning a leaf inward moves it along the segment toward its parent
by the remaining budget (by integer interpolation).
-/

mutual

/-- Modelled from the spec: `prune` on a located tree. -/
def pruneG (d : Nat) : LTree → LTree × Nat
  | .node l cs =>
    let r := pruneGChildren d l cs
    (.node l r.1, r.2)

/-- Modelled from the spec: the per-child loop of `prune` on located trees. -/
def pruneGChildren (d : Nat) (ploc : Point) : List LTree → List LTree × Nat
  | [] => ([], 0)
  | c :: rest =>
    let r := pruneGChildren d ploc rest
    let pc := pruneG d c
    let len := dist ploc pc.1.locOf
    if d ≤ pc.2 then
      (pc.1 :: r.1, max pc.2 r.2)
    else if pc.2 + len ≤ d then
      (r.1, max (pc.2 + len) r.2)
    else
      (LTree.node (interpPoint pc.1.locOf ploc (d - pc.2) len) pc.1.childrenOf
          :: r.1,
        max d r.2)

end

/-!
## Realignment (used by the propagation pipeline)

`realign` (declared at LightningTreeNode.h:200-203, body missing from the
sources) re-fits a tree to the next layer's outline.  The outline and its
locator are external collaborators; they enter the model as the black-box
query functions the spec assigns them: a containment test, a
nearest-boundary-point query, and a connection-validity test for an edge.
-/

mutual

/-- Modelled from the spec: the per-node walk of `realign`.  A node outside
the boundary is moved to the nearest boundary point; a child whose connection
to its (possibly moved) parent no longer exists is detached and becomes the
root of a new, independent tree.  Returns the realigned subtree and the
split-off fragments. -/
def realignNode (inside : Point → Bool) (near : Point → Point)
    (connOk : Point → Point → Bool) : LTree → LTree × List LTree
  | .node l cs =>
    let l₂ := if inside l then l else near l
    let r := realignChildren inside near connOk l₂ cs
    (.node l₂ r.1, r.2)

/-- Modelled from the spec: realign a list of children under a (realigned)
parent location, splitting off the children whose connection broke. -/
def realignChildren (inside : Point → Bool) (near : Point → Point)
    (connOk : Point → Point → Bool) (ploc : Point) :
    List LTree → List LTree × List LTree
  | [] => ([], [])
  | c :: cs =>
    let rc := realignNode inside near connOk c
    let rr := realignChildren inside near connOk ploc cs
    if connOk ploc rc.1.locOf then
      (rc.1 :: rr.1, rc.2 ++ rr.2)
    else
      (rr.1, rc.1 :: (rc.2 ++ rr.2))

end

/-- Modelled from the spec: `LightningTreeNode::realign` — the resulting
trees (the possibly-moved original root plus every split-off fragment) and
whether the original root position is still inside the boundary. -/
def realign (inside : Point → Bool) (near : Point → Point)
    (connOk : Point → Point → Bool) (t : LTree) : List LTree × Bool :=
  let r := realignNode inside near connOk t
  (r.1 :: r.2, inside t.locOf)

/-!
## Polyline conversion
-/

mutual

/-- Modelled from the spec: the recursion of
`LightningTreeNode::convertToPolylines` (declared at
LightningTreeNode.h:232-242 and 250-261, body missing from the sources).
Returns the polyline still being built — the one that continues through this
node toward its parent, running from a leaf up to and including this node's
location — together with the already completed polylines.  At a node the
first child's line continues (the selection at a junction is unspecified in
the contract; first-child is the fixed deterministic choice here); every
other child's line ends at this node, which is a junction. -/
def polyGo : LTree → List Point × List (List Point)
  | .node l [] => ([l], [])
  | .node l (c :: cs) =>
    let r := polyGo c
    let rest := polyGoRest l cs
    (r.1 ++ [l], r.2 ++ rest)

/-- Modelled from the spec: the non-continuing children of a node; each of
their main lines is completed by appending the junction's location, and their
own completed lines are collected. -/
def polyGoRest (p : Point) : List LTree → List (List Point)
  | [] => []
  | c :: cs =>
    let r := polyGo c
    ((r.1 ++ [p]) :: r.2) ++ polyGoRest p cs

end

/-- Modelled from the spec: `LightningTreeNode::convertToPolylines` before
junction-overlap trimming — the main line of the root's run followed by all
completed lines. -/
def convertToPolylines (t : LTree) : List (List Point) :=
  (polyGo t).1 :: (polyGo t).2

/-- Multiset of the consecutive pairs of a polyline (its edges, oriented
from the leaf end toward the junction end). -/
def pairsM : List Point → Multiset (Point × Point)
  | [] => 0
  | [_] => 0
  | a :: b :: rest => (a, b) ::ₘ pairsM (b :: rest)

/-!
## Rerooting
-/

/-- Append an optional extra child. -/
def appendOpt (cs : List LTree) : Option LTree → List LTree
  | none => cs
  | some u => cs ++ [u]

/-- Modelled from the spec: `LightningTreeNode::reroot` (declared at
LightningTreeNode.h:155-162, body missing from the sources), expressed
top-down over the path from the current root to the node that is to become
the root.  Walking down the path, each node hands itself — with the path
child removed from its children and its already-processed former parent
appended — to the next node on the path; the node at the end of the path
becomes the new root with its former parent appended as its last child. -/
def rerootGo : LTree → List Nat → Option LTree → LTree
  | .node l cs, [], up => .node l (appendOpt cs up)
  | .node l cs, k :: rest, up =>
    match cs[k]? with
    | none => .node l (appendOpt cs up)
    | some c => rerootGo c rest (some (.node l (appendOpt (cs.eraseIdx k) up)))

/-- Modelled from the spec: `reroot()` with no new parent — the node at the
given path from the root becomes the root of the re-oriented tree. -/
def reroot (t : LTree) (path : List Nat) : LTree :=
  rerootGo t path none

/-- Whether a child-index path is valid in a subtree. -/
def validPath : LTree → List Nat → Bool
  | _, [] => true
  | .node _ cs, k :: rest =>
    match cs[k]? with
    | none => false
    | some c => validPath c rest

/-- The location of the node addressed by a child-index path, if valid. -/
def nodeLocAt : LTree → List Nat → Option Point
  | .node l _, [] => some l
  | .node _ cs, k :: rest =>
    match cs[k]? with
    | none => none
    | some c => nodeLocAt c rest

/-!
## The node store: the pointer structure of `LightningTreeNode`

A node owns its children (`children_`, shared pointers), holds a non-owning
upward link (`parent_`, a weak pointer) and a root flag (`is_root_`), see
LightningTreeNode.h:265-270.  Shared-pointer identity is modelled by an
allocation store: a list of (id, node record) pairs plus a fresh-id counter.
-/

/-- The record stored per node, mirroring the data members at
LightningTreeNode.h:265-270. -/
structure NodeData where
  p_ : Point
  is_root_ : Bool
  parent_ : Option Nat
  children_ : List Nat
  last_grounding_location_ : Option Point
deriving DecidableEq, Repr

/-- An allocation store of tree nodes: association list from node ids to
records, plus the next fresh id. -/
structure Store where
  nodes : List (Nat × NodeData)
  next : Nat
deriving DecidableEq, Repr

/-- Look an id up in an association list of nodes (first match wins, as for
a map keyed by pointer identity). -/
def lookupId (i : Nat) : List (Nat × NodeData) → Option NodeData
  | [] => none
  | e :: rest => if e.1 = i then some e.2 else lookupId i rest

/-- Look a node id up in a store. -/
def findNode (s : Store) (i : Nat) : Option NodeData :=
  lookupId i s.nodes

/-- Replace the record of an existing node id. -/
def setNode (s : Store) (i : Nat) (nd : NodeData) : Store :=
  { s with nodes := s.nodes.map fun e => if e.1 = i then (i, nd) else e }

/-- `isRoot()` (LightningTreeNode.h:150-153, body in the header): a node
reports being a root by its `is_root_` flag. -/
def isRootFlag (nd : NodeData) : Bool :=
  nd.is_root_

/-- Modelled from the spec: construction of a new root node
(`LightningTreeNode::create` with the protected constructor,
LightningTreeNode.h:40-51 and 183-191, constructor body missing from the
sources): a fresh node with no parent, no children, and the given optional
grounding location. -/
def makeRoot (s : Store) (p : Point) (grounding : Option Point) : Store × Nat :=
  ({ nodes := s.nodes ++ [(s.next, ⟨p, true, none, [], grounding⟩)],
     next := s.next + 1 },
   s.next)

/-- Modelled from the spec: `addChild(p)` (declared at
LightningTreeNode.h:66-72, body missing from the sources): construct a new
node at `p` and attach it as a child of node `n`; returns the new node. -/
def addChildPoint (s : Store) (n : Nat) (p : Point) : Store × Nat :=
  match findNode s n with
  | none => (s, s.next)
  | some nd =>
    let cid := s.next
    let s₁ : Store :=
      { nodes := s.nodes ++ [(cid, ⟨p, false, some n, [], none⟩)],
        next := cid + 1 }
    (setNode s₁ n { nd with children_ := nd.children_ ++ [cid] }, cid)

/-- Modelled from the spec: `addChild(new_child)` (declared at
LightningTreeNode.h:74-79, body missing from the sources; the header
documents that it always returns `new_child`): attach the already-constructed
node `c` as a child of node `n` — append `c` to `n`'s children, point `c`'s
parent link at `n`, clear `c`'s root flag — and return `c` itself. -/
def addChildNode (s : Store) (n c : Nat) : Store × Nat :=
  match findNode s n, findNode s c with
  | some nd, some cd =>
    let s₁ := setNode s n { nd with children_ := nd.children_ ++ [c] }
    let s₂ := setNode s₁ c { cd with parent_ := some n, is_root_ := false }
    (s₂, c)
  | _, _ => (s, c)

mutual

/-- Read the value tree rooted at a node id out of a store (fuel-bounded;
any fuel beyond the store size is enough for well-formed stores). -/
def readTree (s : Store) : Nat → Nat → Option LTree
  | 0, _ => none
  | fuel + 1, i =>
    match findNode s i with
    | none => none
    | some nd => (readChildren s fuel nd.children_).map (LTree.node nd.p_)

/-- Read a list of child subtrees out of a store. -/
def readChildren (s : Store) (fuel : Nat) : List Nat → Option (List LTree)
  | [] => some []
  | i :: is =>
    match readTree s fuel i, readChildren s fuel is with
    | some t, some ts => some (t :: ts)
    | _, _ => none

end

mutual

/-- Modelled from the spec: allocation of a structural copy
(`LightningTreeNode::deepCopy`, declared at LightningTreeNode.h:193-198, body
missing from the sources): every node of the value tree is realised as a
fresh node in the store, children pointing back at their parent. -/
def realize (s : Store) (parent : Option Nat) : LTree → Store × Nat
  | .node l cs =>
    let i := s.next
    let r := realizeChildren { s with next := i + 1 } i cs
    ({ nodes := r.1.nodes ++ [(i, ⟨l, parent.isNone, parent, r.2, none⟩)],
       next := r.1.next },
     i)

/-- Realise a list of children in the store, returning their fresh ids. -/
def realizeChildren (s : Store) (parentId : Nat) :
    List LTree → Store × List Nat
  | [] => (s, [])
  | c :: cs =>
    let rc := realize s (some parentId) c
    let rr := realizeChildren rc.1 parentId cs
    (rr.1, rc.2 :: rr.2)

end

/-- Realise a list of trees as fresh independent roots in the store. -/
def realizeForest (s : Store) : List LTree → Store × List Nat
  | [] => (s, [])
  | t :: ts =>
    let r := realize s none t
    let rr := realizeForest r.1 ts
    (rr.1, r.2 :: rr.2)

/-- Modelled from the spec: `LightningTreeNode::propagateToNextLayer`
(declared at LightningTreeNode.h:99-105, body missing from the sources).
The receiver's subtree is deep-copied — the original nodes are never
touched — and the copy is realigned against the next outline (the outline
and its locator enter as the black-box query functions `inside`, `near` and
`connOk`), every resulting tree is pruned by `pruneDistance` (a tree whose
pruned length falls short of the request has vanished and is dropped), each
survivor is straightened, and the results are realised as fresh trees whose
root ids are handed back. -/
def propagateToNextLayer (s : Store) (rootId : Nat)
    (inside : Point → Bool) (near : Point → Point)
    (connOk : Point → Point → Bool)
    (pruneDistance smoothMagnitude maxRemoveColinearDist : Nat) :
    Store × List Nat :=
  match readTree s (s.nodes.length + 1) rootId with
  | none => (s, [])
  | some t =>
    let aligned := (realign inside near connOk t).1
    let pruned := (aligned.map (pruneG pruneDistance)).filter
      fun r => pruneDistance ≤ r.2
    let smoothed :=
      (pruned.map Prod.fst).map (straighten smoothMagnitude maxRemoveColinearDist)
    realizeForest s smoothed

/-!
## Well-formedness of the pointer structure
-/

/-- A stored node is a root when its parent link is absent. -/
def isRootIn (s : Store) (i : Nat) : Prop :=
  ∃ nd, findNode s i = some nd ∧ nd.parent_ = none

/-- Two stored nodes are adjacent when either holds the other as its
parent. -/
def adjacent (s : Store) (i j : Nat) : Prop :=
  (∃ nd, findNode s i = some nd ∧ nd.parent_ = some j) ∨
    (∃ nd, findNode s j = some nd ∧ nd.parent_ = some i)

/-- Two stored nodes belong to the same connected tree when a chain of
parent links joins them, in either direction. -/
def connectedIn (s : Store) : Nat → Nat → Prop :=
  Relation.ReflTransGen (adjacent s)

/-- Well-formedness of a node store: allocated ids are below the fresh-id
counter and are distinct; `isRoot()` reports exactly the absence of a
parent; every non-root node appears exactly once in its parent's children
sequence; children point back at their parent; and each connected tree
contains exactly one root — two connected roots coincide, and every node is
connected to some root. -/
structure WF (s : Store) : Prop where
  keysLt : ∀ e ∈ s.nodes, e.1 < s.next
  keysNodup : (s.nodes.map Prod.fst).Nodup
  rootFlag : ∀ e ∈ s.nodes, isRootFlag e.2 = true ↔ e.2.parent_ = none
  parentChild : ∀ e ∈ s.nodes, ∀ p, e.2.parent_ = some p →
    ∃ pd, findNode s p = some pd ∧ pd.children_.count e.1 = 1
  childParent : ∀ e ∈ s.nodes, ∀ c ∈ e.2.children_,
    ∃ cd, findNode s c = some cd ∧ cd.parent_ = some e.1
  rootUnique : ∀ i j, isRootIn s i → isRootIn s j → connectedIn s i j → i = j
  rootExists : ∀ e ∈ s.nodes, ∃ r, isRootIn s r ∧ connectedIn s e.1 r

/-!
# Theorems

## Basic facts about the integer square root and distances
-/

theorem isqrtFuel_spec (fuel : Nat) :
    ∀ n, n ≤ fuel → isqrtFuel fuel n * isqrtFuel fuel n ≤ n ∧
      n < (isqrtFuel fuel n + 1) * (isqrtFuel fuel n + 1) := by
  induction fuel with
  | zero =>
    intro n hn
    interval_cases n
    simp [isqrtFuel]
  | succ fuel ih =>
    intro n hn
    rw [isqrtFuel]
    by_cases h2 : n < 2
    · rw [if_pos h2]
      interval_cases n <;> simp
    · rw [if_neg h2]
      simp only
      have hrec : n / 4 ≤ fuel := by omega
      obtain ⟨h1, hu⟩ := ih (n / 4) hrec
      set r₀ := isqrtFuel fuel (n / 4) with hr₀
      have h3 : 4 * (r₀ * r₀) ≤ n := by omega
      have h4 : n < 4 * ((r₀ + 1) * (r₀ + 1)) := by omega
      have e1 : 2 * r₀ * (2 * r₀) = 4 * (r₀ * r₀) := by ring
      have e2 : (2 * r₀ + 1 + 1) * (2 * r₀ + 1 + 1) =
          4 * ((r₀ + 1) * (r₀ + 1)) := by ring
      by_cases hc : (2 * r₀ + 1) * (2 * r₀ + 1) ≤ n
      · rw [if_pos hc]
        omega
      · rw [if_neg hc]
        omega

theorem isqrt_spec (n : Nat) :
    isqrt n * isqrt n ≤ n ∧ n < (isqrt n + 1) * (isqrt n + 1) :=
  isqrtFuel_spec n n le_rfl

theorem isqrt_le_of_le {m n : Nat} (h : m ≤ n) : isqrt m ≤ isqrt n := by
  obtain ⟨h1, -⟩ := isqrt_spec m
  obtain ⟨-, h2⟩ := isqrt_spec n
  by_contra hlt
  push_neg at hlt
  have : (isqrt n + 1) * (isqrt n + 1) ≤ isqrt m * isqrt m :=
    Nat.mul_le_mul hlt hlt
  omega

theorem isqrt_eq_zero_iff {n : Nat} : isqrt n = 0 ↔ n = 0 := by
  obtain ⟨h1, h2⟩ := isqrt_spec n
  constructor
  · intro h
    rw [h] at h2
    omega
  · intro h
    subst h
    rfl

theorem distSq_nonneg (a b : Point) : 0 ≤ distSq a b := by
  have hx := sq_nonneg (a.x - b.x)
  have hy := sq_nonneg (a.y - b.y)
  unfold distSq
  omega

theorem distSq_eq_zero_iff {a b : Point} : distSq a b = 0 ↔ a = b := by
  constructor
  · intro h
    have hx := sq_nonneg (a.x - b.x)
    have hy := sq_nonneg (a.y - b.y)
    unfold distSq at h
    have hx0 : (a.x - b.x) ^ 2 = 0 := by omega
    have hy0 : (a.y - b.y) ^ 2 = 0 := by omega
    have ex : a.x = b.x := by
      have := pow_eq_zero_iff (n := 2) (by omega) |>.mp hx0
      omega
    have ey : a.y = b.y := by
      have := pow_eq_zero_iff (n := 2) (by omega) |>.mp hy0
      omega
    cases a; cases b
    simp_all
  · intro h
    subst h
    unfold distSq
    ring

theorem dist_eq_zero_iff {a b : Point} : dist a b = 0 ↔ a = b := by
  unfold dist
  rw [isqrt_eq_zero_iff, Int.toNat_eq_zero]
  constructor
  · intro h
    exact distSq_eq_zero_iff.mp (le_antisymm h (distSq_nonneg a b))
  · intro h
    exact le_of_eq (distSq_eq_zero_iff.mpr h)

/-!
## C4 — the weighted-distance heuristic
-/

/-- C4: for a fixed branching degree the weighted distance is strictly
increasing in the raw Euclidean distance; for a fixed raw distance it is
non-increasing in the branching degree; and a node with 3 children at
Euclidean distance 1000 scores a strictly lower weighted distance than a
node with 0 children at the same distance, for every supporting radius. -/
theorem C4_weighted_distance_monotonicity :
    (∀ (t₁ t₂ : LTree) (p₁ p₂ : Point) (sr : Nat),
      t₁.childrenOf.length = t₂.childrenOf.length →
      dist t₁.locOf p₁ < dist t₂.locOf p₂ →
      getWeightedDistance t₁ p₁ sr < getWeightedDistance t₂ p₂ sr) ∧
    (∀ (t₁ t₂ : LTree) (p₁ p₂ : Point) (sr : Nat),
      dist t₁.locOf p₁ = dist t₂.locOf p₂ →
      t₁.childrenOf.length ≤ t₂.childrenOf.length →
      getWeightedDistance t₂ p₂ sr ≤ getWeightedDistance t₁ p₁ sr) ∧
    (∀ (t₃ t₀ : LTree) (p₃ p₀ : Point) (sr : Nat),
      t₃.childrenOf.length = 3 → t₀.childrenOf.length = 0 →
      dist t₃.locOf p₃ = 1000 → dist t₀.locOf p₀ = 1000 →
      getWeightedDistance t₃ p₃ sr < getWeightedDistance t₀ p₀ sr) := by
  refine ⟨?_, ?_, ?_⟩
  · intro t₁ t₂ p₁ p₂ sr hdeg hdist
    unfold getWeightedDistance
    rw [hdeg]
    have : (dist t₁.locOf p₁ : Int) < (dist t₂.locOf p₂ : Int) := by
      exact_mod_cast hdist
    omega
  · intro t₁ t₂ p₁ p₂ sr hdist hdeg
    unfold getWeightedDistance valenceBoost
    rw [hdist]
    have hmin : min t₁.childrenOf.length 4 ≤ min t₂.childrenOf.length 4 :=
      min_le_min hdeg le_rfl
    have hboost : ((min t₁.childrenOf.length 4 : Nat) : Int) * ((sr : Int) + 1) ≤
        ((min t₂.childrenOf.length 4 : Nat) : Int) * ((sr : Int) + 1) := by
      apply mul_le_mul_of_nonneg_right _ (by positivity)
      exact_mod_cast hmin
    omega
  · intro t₃ t₀ p₃ p₀ sr h3 h0 hd3 hd0
    unfold getWeightedDistance valenceBoost
    rw [h3, h0, hd3, hd0]
    have : (0 : Int) < 3 * (sr + 1) := by positivity
    have hmin : (min 3 4 : Nat) = 3 := by norm_num
    have hmin0 : (min 0 4 : Nat) = 0 := by norm_num
    rw [hmin, hmin0]
    push_cast
    omega

/-- Witness for C4 at concrete nodes: a 3-child junction and a childless
leaf, both at Euclidean distance 1000 from the unsupported point. -/
theorem C4_weighted_distance_monotonicity_witness :
    getWeightedDistance
        (.node ⟨0, 0⟩ [.node ⟨0, 1⟩ [], .node ⟨0, 2⟩ [], .node ⟨0, 3⟩ []])
        ⟨1000, 0⟩ 7 <
      getWeightedDistance (.node ⟨0, 0⟩ []) ⟨1000, 0⟩ 7 :=
  C4_weighted_distance_monotonicity.2.2
    (.node ⟨0, 0⟩ [.node ⟨0, 1⟩ [], .node ⟨0, 2⟩ [], .node ⟨0, 3⟩ []])
    (.node ⟨0, 0⟩ []) ⟨1000, 0⟩ ⟨1000, 0⟩ 7
    (by rfl) (by rfl) (by decide) (by decide)

/-!
## C1 and C7 — pruning
-/

theorem PTree.indOnP (P : PTree → Prop)
    (h : ∀ cs, (∀ e ∈ cs, P e.2) → P (.node cs)) : ∀ t, P t
  | .node cs => h cs fun e he => PTree.indOnP P h e.2
termination_by t => sizeOf t
decreasing_by
  have h1 := List.sizeOf_lt_of_mem he
  cases e
  simp at h1 ⊢
  omega

theorem pruneChildren_ret_le (d : Nat) (cs : List (Nat × PTree))
    (ih : ∀ e ∈ cs, (prune d e.2).2 ≤ d) : (pruneChildren d cs).2 ≤ d := by
  induction cs with
  | nil => simp [pruneChildren]
  | cons e rest ihr =>
    obtain ⟨len, c⟩ := e
    have hc : (prune d c).2 ≤ d := ih (len, c) (by simp)
    have hrest : (pruneChildren d rest).2 ≤ d :=
      ihr fun e he => ih e (List.mem_cons_of_mem _ he)
    simp only [pruneChildren]
    split_ifs <;> simp <;> omega

theorem prune_ret_le (t : PTree) : ∀ d, (prune d t).2 ≤ d := by
  induction t using PTree.indOnP with
  | h cs ih =>
    intro d
    simp only [prune]
    exact pruneChildren_ret_le d cs fun e he => ih e he d

theorem pruneChildren_ret_le_totalLen (d : Nat) (cs : List (Nat × PTree))
    (ih : ∀ e ∈ cs, (prune d e.2).2 ≤ totalLen e.2) :
    (pruneChildren d cs).2 ≤ totalLenChildren cs := by
  induction cs with
  | nil => simp [pruneChildren, totalLenChildren]
  | cons e rest ihr =>
    obtain ⟨len, c⟩ := e
    have hc : (prune d c).2 ≤ totalLen c := ih (len, c) (by simp)
    have hrest : (pruneChildren d rest).2 ≤ totalLenChildren rest :=
      ihr fun e he => ih e (List.mem_cons_of_mem _ he)
    simp only [pruneChildren, totalLenChildren]
    split_ifs with h1 h2
    · simp
      omega
    · simp
      omega
    · simp
      omega

theorem prune_ret_le_totalLen (t : PTree) :
    ∀ d, (prune d t).2 ≤ totalLen t := by
  induction t using PTree.indOnP with
  | h cs ih =>
    intro d
    simp only [prune, totalLen]
    exact pruneChildren_ret_le_totalLen d cs fun e he => ih e he d

theorem pruneChildren_eq_nil_of_ret_lt (d : Nat) (cs : List (Nat × PTree))
    (h : (pruneChildren d cs).2 < d) : (pruneChildren d cs).1 = [] := by
  induction cs with
  | nil => simp [pruneChildren]
  | cons e rest ihr =>
    obtain ⟨len, c⟩ := e
    simp only [pruneChildren] at h ⊢
    split_ifs at h ⊢ with h1 h2
    · simp at h
      omega
    · simp at h ⊢
      exact ihr (by omega)
    · simp at h

theorem prune_eq_nil_of_ret_lt (d : Nat) (t : PTree)
    (h : (prune d t).2 < d) : (prune d t).1 = .node [] := by
  obtain ⟨cs⟩ := t
  simp only [prune] at h ⊢
  rw [pruneChildren_eq_nil_of_ret_lt d cs h]

theorem prune_zero (t : PTree) : prune 0 t = (t, 0) := by
  induction t using PTree.indOnP with
  | h cs ih =>
    simp only [prune]
    suffices h : pruneChildren 0 cs = (cs, 0) by rw [h]
    induction cs with
    | nil => simp [pruneChildren]
    | cons e rest ihr =>
      obtain ⟨len, c⟩ := e
      have hc : prune 0 c = (c, 0) := ih (len, c) (by simp)
      have hrest : pruneChildren 0 rest = (rest, 0) :=
        ihr fun e he => ih e (List.mem_cons_of_mem _ he)
      simp [pruneChildren, hc, hrest]

theorem pruneChildren_nil_of_totalLen_lt (d : Nat) (cs : List (Nat × PTree))
    (ih : ∀ e ∈ cs, (prune d e.2).2 ≤ totalLen e.2)
    (h : totalLenChildren cs < d) : (pruneChildren d cs).1 = [] := by
  induction cs with
  | nil => simp [pruneChildren]
  | cons e rest ihr =>
    obtain ⟨len, c⟩ := e
    simp only [totalLenChildren] at h
    have hc : (prune d c).2 ≤ totalLen c := ih (len, c) (by simp)
    simp only [pruneChildren]
    split_ifs with h1 h2
    · omega
    · simp
      exact ihr (fun e he => ih e (List.mem_cons_of_mem _ he)) (by omega)
    · omega

theorem prune_total_of_totalLen_lt (d : Nat) (t : PTree)
    (h : totalLen t < d) : (prune d t).1 = .node [] := by
  obtain ⟨cs⟩ := t
  simp only [totalLen] at h
  simp only [prune]
  rw [pruneChildren_nil_of_totalLen_lt d cs
    (fun e _ => prune_ret_le_totalLen e.2 d) h]

/-- C1 (amended): `prune` removes material leaf-inward.  (a) A branch whose
length exceeds the remaining budget — the requested distance minus what was
already pruned below — has its end repositioned inward along the branch by
exactly the remaining budget, and recursion stops on that branch; (b) the
returned rectilinear pruned length never exceeds the requested distance; and
(c) a returned length strictly below the requested distance implies the
entire tree was pruned away.  The converse of (c), as the original claim's
"if and only if" demands, is false: a branch consumed exactly at the budget
also leaves nothing behind while the full distance is reported (see the
counterexample). -/
theorem C1_prune_leaf_inward :
    (∀ (d len : Nat) (c : PTree) (rest : List (Nat × PTree)),
      (prune d c).2 < d → d < (prune d c).2 + len →
      pruneChildren d ((len, c) :: rest) =
        ((len - (d - (prune d c).2), (prune d c).1) :: (pruneChildren d rest).1,
          max d (pruneChildren d rest).2)) ∧
    (∀ (d : Nat) (t : PTree), (prune d t).2 ≤ d) ∧
    (∀ (d : Nat) (t : PTree),
      (prune d t).2 < d → (prune d t).1 = .node []) := by
  refine ⟨?_, fun d t => prune_ret_le t d, fun d t => prune_eq_nil_of_ret_lt d t⟩
  intro d len c rest h1 h2
  simp only [pruneChildren]
  rw [if_neg (by omega), if_neg (by omega)]

/-- Witness for C1 on the spec's own pruning scenario: a chain with edges of
length 50 and 30 pruned by 40; the lower edge is consumed (30), and the upper
branch, longer than the remaining budget of 10, is shortened by exactly 10. -/
theorem C1_prune_leaf_inward_witness :
    (prune 40 (PTree.node [(30, .node [])])).2 < 40 ∧
    40 < (prune 40 (PTree.node [(30, .node [])])).2 + 50 ∧
    pruneChildren 40 [(50, PTree.node [(30, .node [])])] =
      ([(40, PTree.node [])], 40) ∧
    (prune 3 (PTree.node [(1, .node [])])).2 < 3 ∧
    (prune 3 (PTree.node [(1, .node [])])).1 = .node [] := by
  refine ⟨by decide, by decide, ?_, by decide, ?_⟩
  · have h := C1_prune_leaf_inward.1 40 50 (PTree.node [(30, .node [])]) []
      (by decide) (by decide)
    rw [h]
    rfl
  · exact C1_prune_leaf_inward.2.2 3 (PTree.node [(1, .node [])]) (by decide)

/-- Counterexample to C1's "if and only if": a single branch of length 1
pruned by exactly 1 is wholly removed — the entire tree is pruned away — yet
the returned pruned length equals the requested distance, so it is not
strictly less. -/
theorem C1_prune_iff_counterexample :
    (prune 1 (PTree.node [(1, .node [])])).1 = PTree.node [] ∧
    ¬ (prune 1 (PTree.node [(1, .node [])])).2 < 1 := by
  constructor
  · rfl
  · decide

/-- C7 (amended): `prune 0` changes nothing and reports zero pruned length;
and for every distance strictly greater than the tree's total rectilinear
length, pruning removes the entire tree and returns a pruned length strictly
below the requested distance.  At a distance exactly equal to the total
length the original claim fails: a chain is then still wholly removed but
the full requested distance is reported (see the counterexample). -/
theorem C7_prune_zero_and_total :
    (∀ t : PTree, prune 0 t = (t, 0)) ∧
    (∀ (d : Nat) (t : PTree), totalLen t < d →
      (prune d t).1 = .node [] ∧ (prune d t).2 < d) := by
  refine ⟨prune_zero, fun d t h => ⟨prune_total_of_totalLen_lt d t h, ?_⟩⟩
  have := prune_ret_le_totalLen t d
  omega

/-- Witness for C7: pruning the 50/30 chain by 0 is the identity, and
pruning it by 81 (one more than its total length 80) removes it entirely
while returning less than 81. -/
theorem C7_prune_zero_and_total_witness :
    prune 0 (PTree.node [(50, .node [(30, .node [])])]) =
      (PTree.node [(50, .node [(30, .node [])])], 0) ∧
    totalLen (PTree.node [(50, .node [(30, .node [])])]) < 81 ∧
    (prune 81 (PTree.node [(50, .node [(30, .node [])])])).1 = .node [] ∧
    (prune 81 (PTree.node [(50, .node [(30, .node [])])])).2 < 81 := by
  refine ⟨C7_prune_zero_and_total.1 _, by decide, ?_⟩
  exact C7_prune_zero_and_total.2 81 (PTree.node [(50, .node [(30, .node [])])])
    (by decide)

/-- Counterexample to C7 as stated: at a distance exactly equal to the total
tree length (an instance of "d ≥ total tree length"), the whole chain is
removed but the returned pruned length equals the distance instead of being
strictly less. -/
theorem C7_prune_exact_counterexample :
    2 ≥ totalLen (PTree.node [(2, .node [])]) ∧
    (prune 2 (PTree.node [(2, .node [])])).1 = PTree.node [] ∧
    ¬ (prune 2 (PTree.node [(2, .node [])])).2 < 2 := by
  refine ⟨by decide, by rfl, by decide⟩

/-!
## C8 — straightening with zero magnitude and zero removal bound
-/

theorem LTree.indOnL (P : LTree → Prop)
    (h : ∀ l cs, (∀ c ∈ cs, P c) → P (.node l cs)) : ∀ t, P t
  | .node l cs => h l cs fun c hc => LTree.indOnL P h c
termination_by t => sizeOf t
decreasing_by
  have h1 := List.sizeOf_lt_of_mem hc
  simp
  omega

theorem moveToward_zero (src dest : Point) : moveToward src dest 0 = src := by
  unfold moveToward
  split_ifs with h
  · have h0 : dist src dest = 0 := Nat.le_zero.mp h
    exact (dist_eq_zero_iff.mp h0).symm
  · unfold interpPoint
    cases src
    simp

theorem removeColinear_zero (a b l : Point) (total : Nat) :
    removeColinear 0 a b l total = false := by
  unfold removeColinear
  have h := sq_nonneg (cross2 a b l)
  simp only [Bool.and_eq_false_iff]
  left
  right
  simp only [decide_eq_false_iff_not, not_lt]
  push_cast
  calc (0 : Int) ^ 2 * distSq a b = 0 := by ring
  _ ≤ cross2 a b l ^ 2 := h

theorem straightenFromJunction_zero (ds : List LTree)
    (ih : ∀ c ∈ ds, ∀ (j : Point) (acc : Nat),
      (straightenRun 0 0 j acc c).1 = c) :
    ∀ jl : Point, straightenFromJunction 0 0 jl ds = ds := by
  induction ds with
  | nil => intro jl; simp [straightenFromJunction]
  | cons c cs ihr =>
    intro jl
    simp only [straightenFromJunction]
    rw [ih c (by simp), ihr fun c hc => ih c (List.mem_cons_of_mem _ hc)]

theorem straightenRun_zero (t : LTree) :
    ∀ (j : Point) (acc : Nat), (straightenRun 0 0 j acc t).1 = t := by
  induction t using LTree.indOnL with
  | h l cs ih =>
    intro j acc
    match cs with
    | [] => simp [straightenRun]
    | [c] =>
      simp only [straightenRun]
      split_ifs with h1 h2
      · rw [ih c (by simp)]
      · rw [removeColinear_zero] at h2
        exact absurd h2 (by simp)
      · rw [moveToward_zero, ih c (by simp)]
    | c₁ :: c₂ :: rest =>
      simp only [straightenRun]
      rw [straightenFromJunction_zero (c₁ :: c₂ :: rest)
        (fun c hc => ih c hc) l]

/-- C8: straightening with zero smoothing magnitude and zero colinear-removal
bound leaves the tree — in particular the location of every node — entirely
unchanged. -/
theorem C8_straighten_zero_identity (t : LTree) : straighten 0 0 t = t := by
  obtain ⟨l, cs⟩ := t
  unfold straighten
  simp only [LTree.locOf, LTree.childrenOf]
  rw [straightenFromJunction_zero cs
    (fun c _ => straightenRun_zero c) l]

/-!
## C6 — nearest node queries
-/

theorem closestL_mem (p : Point) (cs : List LTree)
    (ih : ∀ c ∈ cs, closestNode p c ∈ subtreesList c) :
    ∀ best, closestL p best cs ∈ best :: subtreesListL cs := by
  induction cs with
  | nil => intro best; simp [closestL]
  | cons c rest ihr =>
    intro best
    simp only [closestL]
    have hc : closestNode p c ∈ subtreesList c := ih c (by simp)
    set best' := if distSq (closestNode p c).locOf p < distSq best.locOf p
      then closestNode p c else best with hbest'
    have hrest := ihr (fun c hc => ih c (List.mem_cons_of_mem _ hc)) best'
    simp only [subtreesListL, List.mem_cons, List.mem_append] at hrest ⊢
    rcases hrest with h | h
    · rw [h]
      by_cases hlt : distSq (closestNode p c).locOf p < distSq best.locOf p
      · rw [hbest', if_pos hlt]
        tauto
      · rw [hbest', if_neg hlt]
        tauto
    · tauto

theorem closestNode_mem (t : LTree) :
    ∀ p, closestNode p t ∈ subtreesList t := by
  induction t using LTree.indOnL with
  | h l cs ih =>
    intro p
    simp only [closestNode, subtreesList]
    exact closestL_mem p cs (fun c hc => ih c hc p) (.node l cs)

theorem closestL_min (p : Point) (cs : List LTree)
    (ih : ∀ c ∈ cs, ∀ q ∈ vertsM c,
      distSq (closestNode p c).locOf p ≤ distSq q p) :
    ∀ best,
      distSq (closestL p best cs).locOf p ≤ distSq best.locOf p ∧
      ∀ q ∈ vertsL cs, distSq (closestL p best cs).locOf p ≤ distSq q p := by
  induction cs with
  | nil =>
    intro best
    constructor
    · simp [closestL]
    · intro q hq
      simp [vertsL] at hq
  | cons c rest ihr =>
    intro best
    have hihr := ihr (fun c hc => ih c (List.mem_cons_of_mem _ hc))
      (if distSq (closestNode p c).locOf p < distSq best.locOf p
        then closestNode p c else best)
    obtain ⟨h1, h2⟩ := hihr
    have hbest : distSq ((if distSq (closestNode p c).locOf p <
        distSq best.locOf p then closestNode p c else best)).locOf p ≤
        distSq best.locOf p := by
      split_ifs with h
      · omega
      · omega
    have hcand : distSq ((if distSq (closestNode p c).locOf p <
        distSq best.locOf p then closestNode p c else best)).locOf p ≤
        distSq (closestNode p c).locOf p := by
      split_ifs with h
      · omega
      · omega
    constructor
    · simp only [closestL]
      omega
    · intro q hq
      simp only [vertsL, Multiset.mem_add] at hq
      simp only [closestL]
      rcases hq with hq | hq
      · have := ih c (by simp) q hq
        omega
      · exact h2 q hq

theorem closestNode_min (t : LTree) :
    ∀ p, ∀ q ∈ vertsM t, distSq (closestNode p t).locOf p ≤ distSq q p := by
  induction t using LTree.indOnL with
  | h l cs ih =>
    intro p q hq
    simp only [vertsM, Multiset.mem_cons] at hq
    obtain ⟨h1, h2⟩ := closestL_min p cs (fun c hc => ih c hc p) (.node l cs)
    simp only [closestNode]
    rcases hq with hq | hq
    · subst hq
      simpa [LTree.locOf] using h1
    · exact h2 q hq

/-- C6: `closestNode(p)` returns a node of the queried subtree (the subtree
itself included) whose Euclidean distance to `p` is at most the distance from
`p` to every node of the subtree; ties are broken deterministically (the
earlier node in traversal order is kept, strict improvement being required
to replace it). -/
theorem C6_closestNode_nearest :
    (∀ (t : LTree) (p : Point), closestNode p t ∈ subtreesList t) ∧
    (∀ (t : LTree) (p q : Point), q ∈ vertsM t →
      dist (closestNode p t).locOf p ≤ dist q p) := by
  refine ⟨fun t p => closestNode_mem t p, fun t p q hq => ?_⟩
  have h := closestNode_min t p q hq
  unfold dist
  exact isqrt_le_of_le (by omega)

/-- Witness for C6 on a concrete two-node tree: the reported nearest node is
at least as close to the query point as the root vertex. -/
theorem C6_closestNode_nearest_witness :
    closestNode ⟨2, 0⟩ (.node ⟨0, 0⟩ [.node ⟨3, 0⟩ []]) ∈
      subtreesList (.node ⟨0, 0⟩ [.node ⟨3, 0⟩ []]) ∧
    dist (closestNode ⟨2, 0⟩ (.node ⟨0, 0⟩ [.node ⟨3, 0⟩ []])).locOf ⟨2, 0⟩ ≤
      dist ⟨0, 0⟩ ⟨2, 0⟩ :=
  ⟨C6_closestNode_nearest.1 (.node ⟨0, 0⟩ [.node ⟨3, 0⟩ []]) ⟨2, 0⟩,
    C6_closestNode_nearest.2 (.node ⟨0, 0⟩ [.node ⟨3, 0⟩ []]) ⟨2, 0⟩ ⟨0, 0⟩
      (by decide)⟩

/-!
## Store lookup lemmas
-/

theorem lookupId_map_set_ne (l : List (Nat × NodeData)) (i : Nat)
    (nd : NodeData) (j : Nat) (h : j ≠ i) :
    lookupId j (l.map fun e => if e.1 = i then (i, nd) else e) =
      lookupId j l := by
  induction l with
  | nil => rfl
  | cons e rest ih =>
    obtain ⟨k, v⟩ := e
    simp only [List.map_cons]
    by_cases hk : k = i
    · subst hk
      rw [if_pos (show (k, v).1 = k from rfl)]
      simp only [lookupId]
      rw [if_neg (show ¬ (k, nd).1 = j from Ne.symm h),
        if_neg (show ¬ (k, v).1 = j from Ne.symm h)]
      exact ih
    · rw [if_neg (show ¬ (k, v).1 = i from hk)]
      simp only [lookupId]
      by_cases hkj : k = j
      · rw [if_pos (show (k, v).1 = j from hkj), if_pos (show (k, v).1 = j from hkj)]
      · rw [if_neg (show ¬ (k, v).1 = j from hkj),
          if_neg (show ¬ (k, v).1 = j from hkj)]
        exact ih

theorem lookupId_map_set_self (l : List (Nat × NodeData)) (i : Nat)
    (nd : NodeData) (v : NodeData) (h : lookupId i l = some v) :
    lookupId i (l.map fun e => if e.1 = i then (i, nd) else e) = some nd := by
  induction l with
  | nil => simp [lookupId] at h
  | cons e rest ih =>
    obtain ⟨k, v'⟩ := e
    simp only [List.map_cons]
    by_cases hk : k = i
    · subst hk
      rw [if_pos (show (k, v').1 = k from rfl)]
      simp [lookupId]
    · rw [if_neg (show ¬ (k, v').1 = i from hk)]
      simp only [lookupId] at h ⊢
      rw [if_neg (show ¬ (k, v').1 = i from hk)] at h ⊢
      exact ih h

theorem findNode_setNode_ne (s : Store) (i j : Nat) (nd : NodeData)
    (h : j ≠ i) : findNode (setNode s i nd) j = findNode s j :=
  lookupId_map_set_ne s.nodes i nd j h

theorem findNode_setNode_self (s : Store) (i : Nat) (nd v : NodeData)
    (h : findNode s i = some v) : findNode (setNode s i nd) i = some nd :=
  lookupId_map_set_self s.nodes i nd v h

theorem mem_of_lookupId_eq_some (l : List (Nat × NodeData)) (i : Nat)
    (v : NodeData) (h : lookupId i l = some v) : (i, v) ∈ l := by
  induction l with
  | nil => simp [lookupId] at h
  | cons e rest ih =>
    obtain ⟨k, v'⟩ := e
    simp only [lookupId] at h
    by_cases hik : k = i
    · rw [if_pos (show (k, v').1 = i from hik)] at h
      subst hik
      simp at h
      subst h
      simp
    · rw [if_neg (show ¬ (k, v').1 = i from hik)] at h
      exact List.mem_cons_of_mem _ (ih h)

/-!
## C10 — attaching an existing node as a child
-/

/-- C10: attaching an already-constructed, unattached node `c` as a child of
`n` returns `c` itself — the same id, with no new allocation — and
afterwards `c`'s parent link points at `n`, `c` no longer reports being a
root, and `c` appears exactly once in `n`'s children sequence. -/
theorem C10_addChild_existing (s : Store) (n c : Nat) (nd cd : NodeData)
    (hn : findNode s n = some nd) (hc : findNode s c = some cd)
    (hne : n ≠ c) (hroot : cd.parent_ = none)
    (hfree : ∀ e ∈ s.nodes, c ∉ e.2.children_) :
    (addChildNode s n c).2 = c ∧
    (addChildNode s n c).1.next = s.next ∧
    findNode (addChildNode s n c).1 c =
      some { cd with parent_ := some n, is_root_ := false } ∧
    isRootFlag { cd with parent_ := some n, is_root_ := false } = false ∧
    ∃ nd', findNode (addChildNode s n c).1 n = some nd' ∧
      nd'.children_.count c = 1 := by
  have hcount : nd.children_.count c = 0 := by
    apply List.count_eq_zero.mpr
    exact hfree (n, nd) (mem_of_lookupId_eq_some s.nodes n nd hn)
  simp only [addChildNode, hn, hc]
  refine ⟨by trivial, by trivial, ?_, by trivial, ?_⟩
  · apply findNode_setNode_self
    rw [findNode_setNode_ne _ _ _ _ (Ne.symm hne)]
    exact hc
  · refine ⟨{ nd with children_ := nd.children_ ++ [c] }, ?_, ?_⟩
    · rw [findNode_setNode_ne _ _ _ _ hne]
      exact findNode_setNode_self s n _ nd hn
    · simp [hcount]

/-- Witness for C10: a store holding two independent roots; attaching node 1
under node 0. -/
theorem C10_addChild_existing_witness :
    (addChildNode ⟨[(0, ⟨⟨0, 0⟩, true, none, [], none⟩),
        (1, ⟨⟨5, 5⟩, true, none, [], none⟩)], 2⟩ 0 1).2 = 1 ∧
    (addChildNode ⟨[(0, ⟨⟨0, 0⟩, true, none, [], none⟩),
        (1, ⟨⟨5, 5⟩, true, none, [], none⟩)], 2⟩ 0 1).1.next = 2 ∧
    findNode (addChildNode ⟨[(0, ⟨⟨0, 0⟩, true, none, [], none⟩),
        (1, ⟨⟨5, 5⟩, true, none, [], none⟩)], 2⟩ 0 1).1 1 =
      some ⟨⟨5, 5⟩, false, some 0, [], none⟩ ∧
    isRootFlag ⟨⟨5, 5⟩, false, some 0, [], none⟩ = false ∧
    ∃ nd', findNode (addChildNode ⟨[(0, ⟨⟨0, 0⟩, true, none, [], none⟩),
        (1, ⟨⟨5, 5⟩, true, none, [], none⟩)], 2⟩ 0 1).1 0 = some nd' ∧
      nd'.children_.count 1 = 1 := by
  have h := C10_addChild_existing
    ⟨[(0, ⟨⟨0, 0⟩, true, none, [], none⟩),
      (1, ⟨⟨5, 5⟩, true, none, [], none⟩)], 2⟩ 0 1
    ⟨⟨0, 0⟩, true, none, [], none⟩ ⟨⟨5, 5⟩, true, none, [], none⟩
    (by decide) (by decide) (by decide) (by decide) (by decide)
  exact h

/-!
## C2 — propagation operates on a copy
-/

/-- Store extension: the new store keeps every old entry in place, appends
only entries with fresh ids, and never lowers the allocation counter. -/
def StoreLe (s s' : Store) : Prop :=
  s.next ≤ s'.next ∧
    ∃ suf, s'.nodes = s.nodes ++ suf ∧ ∀ e ∈ suf, s.next ≤ e.1

theorem storeLe_refl (s : Store) : StoreLe s s :=
  ⟨le_rfl, [], by simp, by simp⟩

theorem storeLe_trans {s₁ s₂ s₃ : Store} (h₁ : StoreLe s₁ s₂)
    (h₂ : StoreLe s₂ s₃) : StoreLe s₁ s₃ := by
  obtain ⟨hn₁, suf₁, he₁, hk₁⟩ := h₁
  obtain ⟨hn₂, suf₂, he₂, hk₂⟩ := h₂
  refine ⟨le_trans hn₁ hn₂, suf₁ ++ suf₂, by rw [he₂, he₁, List.append_assoc], ?_⟩
  intro e he
  rcases List.mem_append.mp he with h | h
  · exact hk₁ e h
  · exact le_trans hn₁ (hk₂ e h)

theorem lookupId_append_fresh (l suf : List (Nat × NodeData)) (bound j : Nat)
    (hk : ∀ e ∈ suf, bound ≤ e.1) (hj : j < bound) :
    lookupId j (l ++ suf) = lookupId j l := by
  induction l with
  | nil =>
    simp only [List.nil_append, lookupId]
    induction suf with
    | nil => rfl
    | cons e rest ih =>
      have h1 : bound ≤ e.1 := hk e (by simp)
      simp only [lookupId]
      rw [if_neg (by omega)]
      exact ih fun e he => hk e (List.mem_cons_of_mem _ he)
  | cons e rest ih =>
    simp only [List.cons_append, lookupId]
    by_cases hej : e.1 = j
    · rw [if_pos hej, if_pos hej]
    · rw [if_neg hej, if_neg hej]
      exact ih

theorem storeLe_findNode {s s' : Store} (h : StoreLe s s') (j : Nat)
    (hj : j < s.next) : findNode s' j = findNode s j := by
  obtain ⟨hn, suf, he, hk⟩ := h
  unfold findNode
  rw [he]
  exact lookupId_append_fresh s.nodes suf s.next j hk hj

theorem realize_storeLe (t : LTree) :
    ∀ (s : Store) (p : Option Nat), StoreLe s (realize s p t).1 := by
  induction t using LTree.indOnL with
  | h l cs ih =>
    intro s p
    have hrec : ∀ ds, (∀ c ∈ ds, ∀ (s : Store) (p : Option Nat),
        StoreLe s (realize s p c).1) →
        ∀ (s' : Store) (pid : Nat), StoreLe s' (realizeChildren s' pid ds).1 := by
      intro ds
      induction ds with
      | nil => intro _ s' pid; exact storeLe_refl s'
      | cons c rest ihr =>
        intro hds s' pid
        simp only [realizeChildren]
        exact storeLe_trans (hds c (by simp) s' (some pid))
          (ihr (fun c hc => hds c (List.mem_cons_of_mem _ hc)) _ pid)
    simp only [realize]
    have h₁ : StoreLe { s with next := s.next + 1 }
        (realizeChildren { s with next := s.next + 1 } s.next cs).1 :=
      hrec cs ih _ s.next
    obtain ⟨hn, suf, he, hk⟩ := h₁
    refine ⟨by simp at hn ⊢; omega,
      suf ++ [(s.next, ⟨l, p.isNone, p,
        (realizeChildren { s with next := s.next + 1 } s.next cs).2, none⟩)],
      ?_, ?_⟩
    · simp only at he
      rw [he, List.append_assoc]
    · intro e hme
      rcases List.mem_append.mp hme with h | h
      · have h2 := hk e h
        rw [show ({ s with next := s.next + 1 } : Store).next = s.next + 1
          from rfl] at h2
        omega
      · simp only [List.mem_singleton] at h
        subst h
        simp

theorem realizeForest_storeLe (ts : List LTree) :
    ∀ s : Store, StoreLe s (realizeForest s ts).1 := by
  induction ts with
  | nil => intro s; exact storeLe_refl s
  | cons t rest ih =>
    intro s
    simp only [realizeForest]
    exact storeLe_trans (realize_storeLe t s none) (ih _)

/-- C2: `propagateToNextLayer` works on a deep copy.  Every node that existed
before the call — identified by an id allocated before it — is found
unchanged afterwards: its location, parent link, root flag, children and
grounding location are exactly as before.  The call only allocates fresh
nodes for the propagated copy. -/
theorem C2_propagateToNextLayer_frame (s : Store) (rootId : Nat)
    (inside : Point → Bool) (near : Point → Point)
    (connOk : Point → Point → Bool)
    (pruneDistance smoothMagnitude maxRemoveColinearDist : Nat)
    (j : Nat) (hj : j < s.next) :
    findNode (propagateToNextLayer s rootId inside near connOk
      pruneDistance smoothMagnitude maxRemoveColinearDist).1 j =
      findNode s j := by
  unfold propagateToNextLayer
  cases h : readTree s (s.nodes.length + 1) rootId with
  | none => rfl
  | some t =>
    simp only
    exact storeLe_findNode (realizeForest_storeLe _ s) j hj

/-- Witness for C2: a store holding a single root node retains that node's
record, unchanged, across a propagation call. -/
theorem C2_propagateToNextLayer_frame_witness :
    findNode (propagateToNextLayer
      ⟨[(0, ⟨⟨0, 0⟩, true, none, [], none⟩)], 1⟩ 0
      (fun _ => true) (fun p => p) (fun _ _ => true) 5 3 2).1 0 =
      findNode ⟨[(0, ⟨⟨0, 0⟩, true, none, [], none⟩)], 1⟩ 0 :=
  C2_propagateToNextLayer_frame ⟨[(0, ⟨⟨0, 0⟩, true, none, [], none⟩)], 1⟩ 0
    (fun _ => true) (fun p => p) (fun _ _ => true) 5 3 2 0 (by decide)

/-!
## C3 — rerooting round-trip
-/

theorem pointLE_total (a b : Point) :
    pointLE a b = true ∨ pointLE b a = true := by
  simp only [pointLE, Bool.or_eq_true, Bool.and_eq_true, decide_eq_true_eq]
  omega

theorem pointLE_antisymm {a b : Point} (h₁ : pointLE a b = true)
    (h₂ : pointLE b a = true) : a = b := by
  simp only [pointLE, Bool.or_eq_true, Bool.and_eq_true, decide_eq_true_eq]
    at h₁ h₂
  obtain ⟨ax, ay⟩ := a
  obtain ⟨bx, by'⟩ := b
  simp_all
  omega

theorem upair_comm (a b : Point) : upair a b = upair b a := by
  by_cases h₁ : pointLE a b = true <;> by_cases h₂ : pointLE b a = true
  · rw [pointLE_antisymm h₁ h₂]
  · unfold upair
    rw [if_pos h₁, if_neg (by simp_all)]
  · unfold upair
    rw [if_neg (by simp_all), if_pos h₂]
  · rcases pointLE_total a b with h | h <;> simp_all

theorem vertsL_append (xs ys : List LTree) :
    vertsL (xs ++ ys) = vertsL xs + vertsL ys := by
  induction xs with
  | nil => simp [vertsL]
  | cons c rest ih => simp [vertsL, ih, add_assoc]

theorem uedgesL_append (p : Point) (xs ys : List LTree) :
    uedgesL p (xs ++ ys) = uedgesL p xs + uedgesL p ys := by
  induction xs with
  | nil => simp [uedgesL]
  | cons c rest ih =>
    simp [uedgesL, ih, add_assoc]

theorem vertsL_eraseIdx (cs : List LTree) :
    ∀ (k : Nat) (c : LTree), cs[k]? = some c →
      vertsL cs = vertsM c + vertsL (cs.eraseIdx k) := by
  induction cs with
  | nil => intro k c h; simp at h
  | cons e rest ih =>
    intro k c h
    match k with
    | 0 =>
      simp at h
      subst h
      simp [List.eraseIdx, vertsL]
    | k + 1 =>
      simp at h
      rw [show (e :: rest).eraseIdx (k + 1) = e :: rest.eraseIdx k from rfl]
      simp only [vertsL]
      rw [ih k c h]
      simp [add_left_comm, add_assoc, add_comm]

theorem uedgesL_eraseIdx (p : Point) (cs : List LTree) :
    ∀ (k : Nat) (c : LTree), cs[k]? = some c →
      uedgesL p cs =
        (upair c.locOf p ::ₘ uedgesM c) + uedgesL p (cs.eraseIdx k) := by
  induction cs with
  | nil => intro k c h; simp at h
  | cons e rest ih =>
    intro k c h
    match k with
    | 0 =>
      simp at h
      subst h
      simp [List.eraseIdx, uedgesL]
    | k + 1 =>
      simp at h
      rw [show (e :: rest).eraseIdx (k + 1) = e :: rest.eraseIdx k from rfl]
      simp only [uedgesL]
      rw [ih k c h]
      rw [← Multiset.singleton_add, ← Multiset.singleton_add,
        ← Multiset.singleton_add]
      simp [add_left_comm, add_assoc, add_comm]

theorem locOf_node (l : Point) (cs : List LTree) :
    (LTree.node l cs).locOf = l := rfl

theorem childrenOf_node (l : Point) (cs : List LTree) :
    (LTree.node l cs).childrenOf = cs := rfl

theorem rerootGo_uedges (path : List Nat) :
    ∀ t : LTree,
      uedgesM (rerootGo t path none) = uedgesM t ∧
      ∀ up : LTree, uedgesM (rerootGo t path (some up)) =
        uedgesM t + uedgesM up + {upair t.locOf up.locOf} := by
  induction path with
  | nil =>
    intro t
    obtain ⟨l, cs⟩ := t
    constructor
    · rfl
    · intro up
      simp only [rerootGo, appendOpt, uedgesM, locOf_node]
      rw [uedgesL_append]
      simp only [uedgesL]
      rw [upair_comm]
      simp only [← Multiset.singleton_add]
      abel
  | cons k rest ih =>
    intro t
    obtain ⟨l, cs⟩ := t
    cases hck : cs[k]? with
    | none =>
      constructor
      · simp only [rerootGo, hck, appendOpt]
      · intro up
        simp only [rerootGo, hck, appendOpt, uedgesM, locOf_node]
        rw [uedgesL_append]
        simp only [uedgesL]
        rw [upair_comm]
        simp only [← Multiset.singleton_add]
        abel
    | some c =>
      have herase := uedgesL_eraseIdx l cs k c hck
      constructor
      · simp only [rerootGo, hck, appendOpt]
        rw [(ih c).2 (.node l (cs.eraseIdx k))]
        simp only [uedgesM, locOf_node]
        rw [herase, upair_comm]
        simp only [← Multiset.singleton_add]
        abel
      · intro up
        simp only [rerootGo, hck, appendOpt, uedgesM, locOf_node]
        rw [(ih c).2 (.node l (cs.eraseIdx k ++ [up]))]
        simp only [uedgesM, locOf_node]
        rw [uedgesL_append, herase]
        simp only [uedgesL]
        rw [← Multiset.singleton_add, ← Multiset.singleton_add,
          upair_comm up.locOf l]
        abel

theorem rerootGo_verts (path : List Nat) :
    ∀ t : LTree,
      vertsM (rerootGo t path none) = vertsM t ∧
      ∀ up : LTree, vertsM (rerootGo t path (some up)) =
        vertsM t + vertsM up := by
  induction path with
  | nil =>
    intro t
    obtain ⟨l, cs⟩ := t
    constructor
    · rfl
    · intro up
      simp only [rerootGo, appendOpt, vertsM]
      rw [vertsL_append]
      simp only [vertsL]
      simp only [← Multiset.singleton_add]
      abel
  | cons k rest ih =>
    intro t
    obtain ⟨l, cs⟩ := t
    cases hck : cs[k]? with
    | none =>
      constructor
      · simp only [rerootGo, hck, appendOpt]
      · intro up
        simp only [rerootGo, hck, appendOpt, vertsM]
        rw [vertsL_append]
        simp only [vertsL]
        simp only [← Multiset.singleton_add]
        abel
    | some c =>
      have herase := vertsL_eraseIdx cs k c hck
      constructor
      · simp only [rerootGo, hck, appendOpt]
        rw [(ih c).2 (.node l (cs.eraseIdx k))]
        simp only [vertsM]
        rw [herase]
        simp only [← Multiset.singleton_add]
        abel
      · intro up
        simp only [rerootGo, hck, appendOpt, vertsM]
        rw [(ih c).2 (.node l (cs.eraseIdx k ++ [up]))]
        simp only [vertsM]
        rw [vertsL_append, herase]
        simp only [vertsL]
        simp only [← Multiset.singleton_add]
        abel

/-- C3: rerooting the tree at the node addressed by a valid path — making it
the root — and then rerooting the result at the node carrying the original
root's location restores the original undirected parent/child edge multiset
and the original multiset of node locations. -/
theorem C3_reroot_roundtrip (t : LTree) (p q : List Nat)
    (hp : validPath t p = true)
    (hq : validPath (reroot t p) q = true)
    (hr : nodeLocAt (reroot t p) q = some t.locOf) :
    uedgesM (reroot (reroot t p) q) = uedgesM t ∧
    vertsM (reroot (reroot t p) q) = vertsM t := by
  unfold reroot
  rw [(rerootGo_uedges q (rerootGo t p none)).1,
    (rerootGo_uedges p t).1,
    (rerootGo_verts q (rerootGo t p none)).1,
    (rerootGo_verts p t).1]
  exact ⟨rfl, rfl⟩

/-!
## C5 — polyline conversion
-/

theorem headD_append_left (l : List Point) (xs : List Point) (d : Point)
    (h : l ≠ []) : (l ++ xs).headD d = l.headD d := by
  cases l with
  | nil => simp at h
  | cons a rest => rfl

theorem pairsM_concat (l : List Point) :
    ∀ (g x : Point), l.getLast? = some g →
      pairsM (l ++ [x]) = (g, x) ::ₘ pairsM l := by
  induction l with
  | nil => intro g x h; simp at h
  | cons a rest ih =>
    intro g x h
    cases rest with
    | nil =>
      simp at h
      subst h
      simp [pairsM]
    | cons b r =>
      have h' : (b :: r).getLast? = some g := by
        rw [← h]
        simp [List.getLast?]
      rw [show (a :: b :: r) ++ [x] = a :: ((b :: r) ++ [x]) from rfl]
      rw [show (b :: r) ++ [x] = b :: (r ++ [x]) from rfl]
      simp only [pairsM]
      rw [show b :: (r ++ [x]) = (b :: r) ++ [x] from rfl]
      rw [ih g x h']
      exact (Multiset.cons_swap _ _ _)

theorem card_pairsM (l : List Point) :
    Multiset.card (pairsM l) = l.length - 1 := by
  induction l with
  | nil => simp [pairsM]
  | cons a rest ih =>
    cases rest with
    | nil => simp [pairsM]
    | cons b r =>
      simp only [pairsM] at ih ⊢
      simp [ih]

theorem sum_card_multisets (ls : List (Multiset (Point × Point))) :
    (ls.map Multiset.card).sum = Multiset.card ls.sum := by
  induction ls with
  | nil => simp
  | cons m rest ih => simp [ih]

theorem card_edgesL (p : Point) (cs : List LTree)
    (ih : ∀ c ∈ cs, Multiset.card (edgesM c) = edgeCount c) :
    Multiset.card (edgesL p cs) = cs.length + edgeCountL cs := by
  induction cs with
  | nil => simp [edgesL, edgeCountL]
  | cons c rest ihr =>
    simp only [edgesL, edgeCountL, Multiset.card_cons, Multiset.card_add]
    rw [ih c (by simp), ihr fun c hc => ih c (List.mem_cons_of_mem _ hc)]
    simp [List.length_cons]
    omega

theorem card_edgesM (t : LTree) :
    Multiset.card (edgesM t) = edgeCount t := by
  induction t using LTree.indOnL with
  | h l cs ih =>
    simp only [edgesM, edgeCount]
    exact card_edgesL l cs ih

theorem polyGoRest_spec (p : Point) (ds : List LTree)
    (ih : ∀ c ∈ ds,
      (polyGo c).1 ≠ [] ∧
      (polyGo c).1.getLast? = some c.locOf ∧
      (∀ l ∈ (polyGo c).2, l ≠ []) ∧
      ((polyGo c).1.headD ⟨0, 0⟩ ::ₘ
        (((polyGo c).2.map fun l => l.headD ⟨0, 0⟩ : List Point) :
          Multiset Point)) = leafLocsM c ∧
      pairsM (polyGo c).1 + ((polyGo c).2.map pairsM).sum = edgesM c ∧
      1 + (polyGo c).2.length = leafCount c ∧
      (∀ l ∈ (polyGo c).2, ∃ x, l.getLast? = some x ∧
        x ∈ junctionLocsM c)) :
    (∀ l ∈ polyGoRest p ds, l ≠ []) ∧
    ((((polyGoRest p ds).map fun l => l.headD ⟨0, 0⟩ : List Point)) :
      Multiset Point) = leafLocsL ds ∧
    ((polyGoRest p ds).map pairsM).sum = edgesL p ds ∧
    (polyGoRest p ds).length = leafCountL ds ∧
    (∀ l ∈ polyGoRest p ds, ∃ x, l.getLast? = some x ∧
      (x = p ∨ x ∈ junctionLocsL ds)) := by
  induction ds with
  | nil =>
    refine ⟨by simp [polyGoRest], by simp [polyGoRest, leafLocsL], ?_, ?_, ?_⟩
    · simp [polyGoRest, edgesL]
    · simp [polyGoRest, leafCountL]
    · simp [polyGoRest]
  | cons c rest ihr =>
    obtain ⟨hm, hlast, ho, hheads, hpairs, hcount, hjunc⟩ := ih c (by simp)
    obtain ⟨ihm, ihheads, ihpairs, ihcount, ihjunc⟩ :=
      ihr fun c hc => ih c (List.mem_cons_of_mem _ hc)
    simp only [polyGoRest]
    refine ⟨?_, ?_, ?_, ?_, ?_⟩
    · intro l hl
      simp only [List.mem_append, List.mem_cons] at hl
      rcases hl with (hl | hl) | hl
      · subst hl; simp
      · exact ho l hl
      · exact ihm l hl
    · simp only [List.map_append, List.map_cons]
      rw [← Multiset.coe_add, ← Multiset.cons_coe]
      rw [headD_append_left _ _ _ hm]
      simp only [leafLocsL]
      rw [← ihheads, ← hheads]
    · simp only [List.map_append, List.map_cons, List.sum_append,
        List.sum_cons]
      rw [pairsM_concat (polyGo c).1 c.locOf p hlast]
      simp only [edgesL]
      rw [← hpairs, ← ihpairs]
      rw [← Multiset.singleton_add, ← Multiset.singleton_add]
      abel
    · simp only [List.length_append, List.length_cons, leafCountL]
      omega
    · intro l hl
      simp only [List.mem_append, List.mem_cons] at hl
      rcases hl with (hl | hl) | hl
      · subst hl
        exact ⟨p, List.getLast?_concat _, Or.inl rfl⟩
      · obtain ⟨x, hx1, hx2⟩ := hjunc l hl
        refine ⟨x, hx1, Or.inr ?_⟩
        simp only [junctionLocsL, Multiset.mem_add]
        exact Or.inl hx2
      · obtain ⟨x, hx1, hx2⟩ := ihjunc l hl
        refine ⟨x, hx1, ?_⟩
        rcases hx2 with h | h
        · exact Or.inl h
        · refine Or.inr ?_
          simp only [junctionLocsL, Multiset.mem_add]
          exact Or.inr h

theorem polyGo_spec (t : LTree) :
    (polyGo t).1 ≠ [] ∧
    (polyGo t).1.getLast? = some t.locOf ∧
    (∀ l ∈ (polyGo t).2, l ≠ []) ∧
    ((polyGo t).1.headD ⟨0, 0⟩ ::ₘ
      (((polyGo t).2.map fun l => l.headD ⟨0, 0⟩ : List Point) :
        Multiset Point)) = leafLocsM t ∧
    pairsM (polyGo t).1 + ((polyGo t).2.map pairsM).sum = edgesM t ∧
    1 + (polyGo t).2.length = leafCount t ∧
    (∀ l ∈ (polyGo t).2, ∃ x, l.getLast? = some x ∧
      x ∈ junctionLocsM t) := by
  induction t using LTree.indOnL with
  | h l cs ih =>
    match cs with
    | [] =>
      refine ⟨by simp [polyGo], by simp [polyGo, locOf_node], by simp [polyGo],
        ?_, ?_, ?_, by simp [polyGo]⟩
      · simp [polyGo, leafLocsM]
      · simp [polyGo, pairsM, edgesM, edgesL]
      · simp [polyGo, leafCount]
    | c :: rest =>
      obtain ⟨hm, hlast, ho, hheads, hpairs, hcount, hjunc⟩ := ih c (by simp)
      obtain ⟨rm, rheads, rpairs, rcount, rjunc⟩ :=
        polyGoRest_spec l rest fun c hc => ih c (List.mem_cons_of_mem _ hc)
      simp only [polyGo]
      refine ⟨by simp, ?_, ?_, ?_, ?_, ?_, ?_⟩
      · simp [List.getLast?_concat, locOf_node]
      · intro l' hl'
        simp only [List.mem_append] at hl'
        rcases hl' with hl' | hl'
        · exact ho l' hl'
        · exact rm l' hl'
      · simp only [List.map_append]
        rw [← Multiset.coe_add]
        rw [headD_append_left _ _ _ hm]
        simp only [leafLocsM]
        rw [← rheads, ← hheads]
        simp only [← Multiset.singleton_add]
        abel
      · simp only [List.map_append, List.sum_append]
        rw [pairsM_concat (polyGo c).1 c.locOf l hlast]
        simp only [edgesM, edgesL]
        rw [← hpairs, ← rpairs]
        rw [← Multiset.singleton_add, ← Multiset.singleton_add]
        abel
      · simp only [List.length_append, leafCount, leafCountL]
        omega
      · intro l' hl'
        simp only [List.mem_append] at hl'
        rcases hl' with hl' | hl'
        · obtain ⟨x, hx1, hx2⟩ := hjunc l' hl'
          refine ⟨x, hx1, ?_⟩
          simp only [junctionLocsM, junctionLocsL, Multiset.mem_add]
          exact Or.inr (Or.inl hx2)
        · obtain ⟨x, hx1, hx2⟩ := rjunc l' hl'
          refine ⟨x, hx1, ?_⟩
          rcases hx2 with h | h
          · subst h
            match rest, hl' with
            | c₂ :: rest₂, hl' =>
              simp only [junctionLocsM, Multiset.mem_add]
              refine Or.inl ?_
              rw [if_pos (by simp)]
              simp
          · simp only [junctionLocsM, junctionLocsL, Multiset.mem_add]
            exact Or.inr (Or.inr h)

/-- C5: before junction-overlap trimming, `convertToPolylines` partitions the
tree's edges among the produced polylines: the combined edge count equals the
tree's edge count, the multiset of all polyline edges equals the multiset of
tree edges (every tree edge appears in exactly one polyline), the number of
polylines equals the tree's leaf count, the multiset of polyline start points
equals the multiset of leaf locations (every polyline starts at a leaf), and
every polyline ends at a junction location or at the overall root. -/
theorem C5_convertToPolylines_partition (t : LTree) :
    ((convertToPolylines t).map fun l => l.length - 1).sum = edgeCount t ∧
    ((convertToPolylines t).map pairsM).sum = edgesM t ∧
    (convertToPolylines t).length = leafCount t ∧
    (((convertToPolylines t).map fun l => l.headD ⟨0, 0⟩ : List Point) :
      Multiset Point) = leafLocsM t ∧
    (∀ l ∈ convertToPolylines t, ∃ x, l.getLast? = some x ∧
      (x ∈ junctionLocsM t ∨ x = t.locOf)) := by
  obtain ⟨hm, hlast, ho, hheads, hpairs, hcount, hjunc⟩ := polyGo_spec t
  have hpart : ((convertToPolylines t).map pairsM).sum = edgesM t := by
    simp only [convertToPolylines, List.map_cons, List.sum_cons]
    exact hpairs
  refine ⟨?_, hpart, ?_, ?_, ?_⟩
  · have hcong : (convertToPolylines t).map (fun l => l.length - 1) =
        (convertToPolylines t).map fun l => Multiset.card (pairsM l) := by
      apply List.map_congr_left
      intro l _
      rw [card_pairsM]
    rw [hcong]
    rw [show ((convertToPolylines t).map fun l => Multiset.card (pairsM l)) =
      (((convertToPolylines t).map pairsM).map Multiset.card) by
        rw [List.map_map]
        rfl]
    rw [sum_card_multisets, hpart, card_edgesM]
  · simp only [convertToPolylines, List.length_cons]
    omega
  · simp only [convertToPolylines, List.map_cons]
    rw [← Multiset.cons_coe]
    exact hheads
  · intro l hl
    simp only [convertToPolylines, List.mem_cons] at hl
    rcases hl with hl | hl
    · subst hl
      exact ⟨t.locOf, hlast, Or.inr rfl⟩
    · obtain ⟨x, hx1, hx2⟩ := hjunc l hl
      exact ⟨x, hx1, Or.inl hx2⟩

/-- Witness for C5 at a concrete junction tree: its polylines are a concrete
partition, and the first polyline ends at a junction or the root. -/
theorem C5_convertToPolylines_partition_witness :
    ((convertToPolylines (.node ⟨0, 0⟩
        [.node ⟨0, 5⟩ [.node ⟨0, 9⟩ [], .node ⟨4, 5⟩ []]])).map
      fun l => l.length - 1).sum =
      edgeCount (.node ⟨0, 0⟩
        [.node ⟨0, 5⟩ [.node ⟨0, 9⟩ [], .node ⟨4, 5⟩ []]]) ∧
    (∃ x, ([⟨0, 9⟩, ⟨0, 5⟩, ⟨0, 0⟩] : List Point).getLast? = some x ∧
      (x ∈ junctionLocsM (.node ⟨0, 0⟩
          [.node ⟨0, 5⟩ [.node ⟨0, 9⟩ [], .node ⟨4, 5⟩ []]]) ∨
        x = (LTree.node ⟨0, 0⟩
          [.node ⟨0, 5⟩ [.node ⟨0, 9⟩ [], .node ⟨4, 5⟩ []]]).locOf)) :=
  ⟨(C5_convertToPolylines_partition (.node ⟨0, 0⟩
      [.node ⟨0, 5⟩ [.node ⟨0, 9⟩ [], .node ⟨4, 5⟩ []]])).1,
    (C5_convertToPolylines_partition (.node ⟨0, 0⟩
      [.node ⟨0, 5⟩ [.node ⟨0, 9⟩ [], .node ⟨4, 5⟩ []]])).2.2.2.2
      [⟨0, 9⟩, ⟨0, 5⟩, ⟨0, 0⟩] (by decide)⟩

/-- Witness for C3: a three-node tree rerooted at its first child and then
back at the node holding the original root's location. -/
theorem C3_reroot_roundtrip_witness :
    uedgesM (reroot (reroot
        (.node ⟨0, 0⟩ [.node ⟨1, 0⟩ [], .node ⟨2, 0⟩ []]) [0]) [0]) =
      uedgesM (.node ⟨0, 0⟩ [.node ⟨1, 0⟩ [], .node ⟨2, 0⟩ []]) ∧
    vertsM (reroot (reroot
        (.node ⟨0, 0⟩ [.node ⟨1, 0⟩ [], .node ⟨2, 0⟩ []]) [0]) [0]) =
      vertsM (.node ⟨0, 0⟩ [.node ⟨1, 0⟩ [], .node ⟨2, 0⟩ []]) :=
  C3_reroot_roundtrip (.node ⟨0, 0⟩ [.node ⟨1, 0⟩ [], .node ⟨2, 0⟩ []])
    [0] [0] (by decide) (by decide) (by decide)

/-!
## C9 — well-formedness of the pointer structure

Preservation of the store invariants by node construction and attachment.
-/

theorem lookupId_append_some (l l' : List (Nat × NodeData)) (j : Nat)
    (v : NodeData) (h : lookupId j l = some v) :
    lookupId j (l ++ l') = some v := by
  induction l with
  | nil => simp [lookupId] at h
  | cons e rest ih =>
    simp only [lookupId, List.cons_append] at h ⊢
    by_cases he : e.1 = j
    · rwa [if_pos he] at h ⊢
    · rw [if_neg he] at h ⊢
      exact ih h

theorem lookupId_append_none (l l' : List (Nat × NodeData)) (j : Nat)
    (h : lookupId j l = none) :
    lookupId j (l ++ l') = lookupId j l' := by
  induction l with
  | nil => simp
  | cons e rest ih =>
    simp only [lookupId, List.cons_append] at h ⊢
    by_cases he : e.1 = j
    · rw [if_pos he] at h
      simp at h
    · rw [if_neg he] at h ⊢
      exact ih h

theorem lookupId_none_of_ge (l : List (Nat × NodeData)) (b j : Nat)
    (hk : ∀ e ∈ l, e.1 < b) (hj : b ≤ j) : lookupId j l = none := by
  induction l with
  | nil => rfl
  | cons e rest ih =>
    have h1 := hk e (by simp)
    simp only [lookupId]
    rw [if_neg (by omega)]
    exact ih fun e he => hk e (List.mem_cons_of_mem _ he)

theorem lookupId_of_mem_nodup (l : List (Nat × NodeData)) (i : Nat)
    (v : NodeData) (hnd : (l.map Prod.fst).Nodup) (hm : (i, v) ∈ l) :
    lookupId i l = some v := by
  induction l with
  | nil => simp at hm
  | cons e rest ih =>
    simp only [List.map_cons, List.nodup_cons] at hnd
    simp only [List.mem_cons] at hm
    rcases hm with hm | hm
    · subst hm
      simp [lookupId]
    · simp only [lookupId]
      rw [if_neg ?_]
      · exact ih hnd.2 hm
      · intro he
        exact hnd.1 (he ▸ List.mem_map_of_mem Prod.fst hm)

theorem keys_setNode (s : Store) (i : Nat) (nd : NodeData) :
    (setNode s i nd).nodes.map Prod.fst = s.nodes.map Prod.fst := by
  simp only [setNode, List.map_map]
  apply List.map_congr_left
  intro e _
  by_cases he : e.1 = i
  · simp [he]
  · simp [he]

theorem lookupId_setNode_none (l : List (Nat × NodeData)) (i : Nat)
    (nd : NodeData) (h : lookupId i l = none) :
    lookupId i (l.map fun e => if e.1 = i then (i, nd) else e) = none := by
  induction l with
  | nil => rfl
  | cons e rest ih =>
    simp only [lookupId] at h
    by_cases he : e.1 = i
    · rw [if_pos he] at h
      simp at h
    · rw [if_neg he] at h
      simp only [List.map_cons, if_neg he, lookupId, if_neg he]
      exact ih h

theorem findNode_setNode_inv (s : Store) (i j : Nat) (nd w : NodeData)
    (h : findNode (setNode s i nd) j = some w) :
    (j ≠ i ∧ findNode s j = some w) ∨ (j = i ∧ w = nd) := by
  by_cases hji : j = i
  · subst hji
    cases hf : findNode s j with
    | none =>
      rw [show findNode (setNode s j nd) j = none from
        lookupId_setNode_none s.nodes j nd hf] at h
      simp at h
    | some v =>
      rw [findNode_setNode_self s j nd v hf] at h
      simp at h
      exact Or.inr ⟨rfl, h.symm⟩
  · rw [findNode_setNode_ne s i j nd hji] at h
    exact Or.inl ⟨hji, h⟩

theorem adjacent_symm {s : Store} {x y : Nat} (h : adjacent s x y) :
    adjacent s y x := h.symm

theorem connectedIn_symm {s : Store} {x y : Nat} (h : connectedIn s x y) :
    connectedIn s y x := by
  induction h with
  | refl => exact Relation.ReflTransGen.refl
  | tail hxy hstep ih =>
    exact Relation.ReflTransGen.head (adjacent_symm hstep) ih

theorem connectedIn_mono {s s' : Store}
    (h : ∀ x y, adjacent s x y → adjacent s' x y) {x y : Nat}
    (hc : connectedIn s x y) : connectedIn s' x y :=
  Relation.ReflTransGen.mono h hc

theorem connectedIn_eq_of_no_adj {s : Store}
    (h : ∀ x y, ¬ adjacent s x y) {i j : Nat} (hc : connectedIn s i j) :
    i = j := by
  induction hc with
  | refl => rfl
  | tail hxy hstep ih => exact absurd hstep (h _ _)

theorem connectedIn_eq_of_isolated {s : Store} {z j : Nat}
    (h : ∀ y, ¬ adjacent s z y) (hc : connectedIn s z j) : z = j := by
  induction hc using Relation.ReflTransGen.head_induction_on with
  | refl => rfl
  | head hstep _ _ => exact absurd hstep (h _)

theorem findNode_fresh_none (s : Store) (hk : ∀ e ∈ s.nodes, e.1 < s.next)
    {j : Nat} (hj : s.next ≤ j) : findNode s j = none :=
  lookupId_none_of_ge s.nodes s.next j hk hj

theorem no_adj_fresh {s : Store} (hwf : WF s) (j : Nat) {y : Nat}
    (hj : s.next ≤ j) : ¬ adjacent s j y := by
  rintro (⟨nd, hfind, hpar⟩ | ⟨nd, hfind, hpar⟩)
  · rw [findNode_fresh_none s hwf.keysLt hj] at hfind
    simp at hfind
  · obtain ⟨pd, hpd, -⟩ :=
      hwf.parentChild (y, nd) (mem_of_lookupId_eq_some s.nodes y nd hfind)
        j hpar
    rw [findNode_fresh_none s hwf.keysLt hj] at hpd
    simp at hpd

theorem findNode_makeRoot_old (s : Store) (p : Point) (g : Option Point)
    {j : Nat} {v : NodeData} (h : findNode s j = some v) :
    findNode (makeRoot s p g).1 j = some v :=
  lookupId_append_some s.nodes _ j v h

theorem findNode_makeRoot_new (s : Store) (p : Point) (g : Option Point)
    (hk : ∀ e ∈ s.nodes, e.1 < s.next) :
    findNode (makeRoot s p g).1 s.next = some ⟨p, true, none, [], g⟩ := by
  unfold makeRoot findNode
  rw [lookupId_append_none _ _ _ (findNode_fresh_none s hk le_rfl)]
  simp [lookupId]

theorem findNode_makeRoot_inv (s : Store) (p : Point) (g : Option Point)
    {j : Nat} {w : NodeData} (h : findNode (makeRoot s p g).1 j = some w) :
    findNode s j = some w ∨ (j = s.next ∧ w = ⟨p, true, none, [], g⟩) := by
  cases hf : findNode s j with
  | some v =>
    rw [findNode_makeRoot_old s p g hf] at h
    simp at h
    exact Or.inl (by rw [h])
  | none =>
    unfold makeRoot findNode at h
    rw [lookupId_append_none _ _ _ hf] at h
    simp only [lookupId] at h
    by_cases hj : s.next = j
    · rw [if_pos hj] at h
      simp at h
      exact Or.inr ⟨hj.symm, h.symm⟩
    · rw [if_neg hj] at h
      simp [lookupId] at h

theorem adj_makeRoot_iff (s : Store) (p : Point) (g : Option Point)
    (hwf : WF s) (x y : Nat) :
    adjacent (makeRoot s p g).1 x y ↔ adjacent s x y := by
  constructor
  · rintro (⟨nd, hfind, hpar⟩ | ⟨nd, hfind, hpar⟩)
    · rcases findNode_makeRoot_inv s p g hfind with h | ⟨-, h⟩
      · exact Or.inl ⟨nd, h, hpar⟩
      · subst h
        simp at hpar
    · rcases findNode_makeRoot_inv s p g hfind with h | ⟨-, h⟩
      · exact Or.inr ⟨nd, h, hpar⟩
      · subst h
        simp at hpar
  · rintro (⟨nd, hfind, hpar⟩ | ⟨nd, hfind, hpar⟩)
    · exact Or.inl ⟨nd, findNode_makeRoot_old s p g hfind, hpar⟩
    · exact Or.inr ⟨nd, findNode_makeRoot_old s p g hfind, hpar⟩

theorem WF_makeRoot (s : Store) (p : Point) (g : Option Point)
    (hwf : WF s) : WF (makeRoot s p g).1 := by
  have hconn : ∀ x y, connectedIn (makeRoot s p g).1 x y → connectedIn s x y :=
    fun x y => connectedIn_mono fun a b => (adj_makeRoot_iff s p g hwf a b).mp
  have hconn' : ∀ x y, connectedIn s x y → connectedIn (makeRoot s p g).1 x y :=
    fun x y => connectedIn_mono fun a b => (adj_makeRoot_iff s p g hwf a b).mpr
  have hmem : ∀ e, e ∈ (makeRoot s p g).1.nodes →
      e ∈ s.nodes ∨ e = (s.next, ⟨p, true, none, [], g⟩) := by
    intro e he
    simp only [makeRoot, List.mem_append, List.mem_singleton] at he
    exact he
  refine ⟨?_, ?_, ?_, ?_, ?_, ?_, ?_⟩
  · intro e he
    rcases hmem e he with h | h
    · have := hwf.keysLt e h
      simp only [makeRoot]
      omega
    · subst h
      simp [makeRoot]
  · simp only [makeRoot, List.map_append, List.map_singleton]
    apply List.Nodup.append hwf.keysNodup (List.nodup_singleton _)
    intro a ha hb
    simp only [List.mem_singleton] at hb
    subst hb
    obtain ⟨e, he, hfst⟩ := List.mem_map.mp ha
    have := hwf.keysLt e he
    omega
  · intro e he
    rcases hmem e he with h | h
    · exact hwf.rootFlag e h
    · subst h
      simp [isRootFlag]
  · intro e he q hq
    rcases hmem e he with h | h
    · obtain ⟨pd, hpd, hcount⟩ := hwf.parentChild e h q hq
      exact ⟨pd, findNode_makeRoot_old s p g hpd, hcount⟩
    · subst h
      simp at hq
  · intro e he c hc
    rcases hmem e he with h | h
    · obtain ⟨cd, hcd, hpar⟩ := hwf.childParent e h c hc
      exact ⟨cd, findNode_makeRoot_old s p g hcd, hpar⟩
    · subst h
      simp at hc
  · intro i j hi hj hc
    have hiso : ∀ y, ¬ adjacent (makeRoot s p g).1 s.next y := by
      intro y hadj
      exact no_adj_fresh hwf s.next le_rfl
        ((adj_makeRoot_iff s p g hwf s.next y).mp hadj)
    by_cases hi' : i = s.next
    · subst hi'
      exact connectedIn_eq_of_isolated hiso hc
    · by_cases hj' : j = s.next
      · subst hj'
        exact (connectedIn_eq_of_isolated hiso (connectedIn_symm hc)).symm
      · obtain ⟨ndi, hfi, hpi⟩ := hi
        obtain ⟨ndj, hfj, hpj⟩ := hj
        rcases findNode_makeRoot_inv s p g hfi with h1 | ⟨h1, -⟩
        · rcases findNode_makeRoot_inv s p g hfj with h2 | ⟨h2, -⟩
          · exact hwf.rootUnique i j ⟨ndi, h1, hpi⟩ ⟨ndj, h2, hpj⟩
              (hconn i j hc)
          · exact absurd h2 hj'
        · exact absurd h1 hi'
  · intro e he
    rcases hmem e he with h | h
    · obtain ⟨r, ⟨rd, hrd, hrp⟩, hcr⟩ := hwf.rootExists e h
      exact ⟨r, ⟨rd, findNode_makeRoot_old s p g hrd, hrp⟩, hconn' _ _ hcr⟩
    · subst h
      refine ⟨s.next, ⟨⟨p, true, none, [], g⟩,
        findNode_makeRoot_new s p g hwf.keysLt, rfl⟩,
        Relation.ReflTransGen.refl⟩

theorem mem_setNode {s : Store} {i : Nat} {nd : NodeData}
    {e : Nat × NodeData} (he : e ∈ (setNode s i nd).nodes) :
    e = (i, nd) ∨ (e ∈ s.nodes ∧ e.1 ≠ i) := by
  obtain ⟨e₀, he₀, hfe⟩ := List.mem_map.mp he
  by_cases h : e₀.1 = i
  · rw [if_pos h] at hfe
    exact Or.inl hfe.symm
  · rw [if_neg h] at hfe
    subst hfe
    exact Or.inr ⟨he₀, h⟩

theorem findNode_data_unique {s : Store}
    (hnd : (s.nodes.map Prod.fst).Nodup) {i : Nat} {v w : NodeData}
    (hm : (i, v) ∈ s.nodes) (hf : findNode s i = some w) : v = w := by
  have h := lookupId_of_mem_nodup s.nodes i v hnd hm
  unfold findNode at hf
  rw [h] at hf
  exact Option.some.injEq _ _ ▸ hf

theorem key_lt_of_findNode {s : Store} (hwf : WF s) {i : Nat} {v : NodeData}
    (hf : findNode s i = some v) : i < s.next :=
  hwf.keysLt (i, v) (mem_of_lookupId_eq_some s.nodes i v hf)

/-!
Characterisation of `addChildPoint s n p` when `n` exists: the store becomes
`setNode s₁ n nd'` with `s₁` appending the fresh child at id `s.next`.
-/

theorem acp_result (s : Store) (n : Nat) (p : Point) (nd : NodeData)
    (hn : findNode s n = some nd) :
    addChildPoint s n p =
      (setNode ⟨s.nodes ++ [(s.next, ⟨p, false, some n, [], none⟩)],
          s.next + 1⟩ n
        { nd with children_ := nd.children_ ++ [s.next] }, s.next) := by
  simp [addChildPoint, hn]

theorem acp_findNode_parent (s : Store) (n : Nat) (p : Point) (nd : NodeData)
    (hwf : WF s) (hn : findNode s n = some nd) :
    findNode (addChildPoint s n p).1 n =
      some { nd with children_ := nd.children_ ++ [s.next] } := by
  rw [acp_result s n p nd hn]
  exact findNode_setNode_self _ n _ nd (lookupId_append_some _ _ _ _ hn)

theorem acp_findNode_child (s : Store) (n : Nat) (p : Point) (nd : NodeData)
    (hwf : WF s) (hn : findNode s n = some nd) :
    findNode (addChildPoint s n p).1 s.next =
      some ⟨p, false, some n, [], none⟩ := by
  have hne : s.next ≠ n := by
    have := key_lt_of_findNode hwf hn
    omega
  rw [acp_result s n p nd hn]
  rw [findNode_setNode_ne _ _ _ _ hne]
  show lookupId s.next (s.nodes ++ _) = _
  rw [lookupId_append_none _ _ _ (findNode_fresh_none s hwf.keysLt le_rfl)]
  simp [lookupId]

theorem acp_findNode_other (s : Store) (n : Nat) (p : Point) (nd : NodeData)
    (hwf : WF s) (hn : findNode s n = some nd) {j : Nat} (hjn : j ≠ n)
    (hjc : j ≠ s.next) :
    findNode (addChildPoint s n p).1 j = findNode s j := by
  rw [acp_result s n p nd hn]
  rw [findNode_setNode_ne _ _ _ _ hjn]
  show lookupId j (s.nodes ++ _) = _
  cases hf : findNode s j with
  | some v => exact lookupId_append_some _ _ _ _ hf
  | none =>
    rw [lookupId_append_none _ _ _ hf]
    simp only [lookupId]
    rw [if_neg (show ¬ (s.next, (⟨p, false, some n, [], none⟩ : NodeData)).1 = j
      from fun hh => hjc hh.symm)]

theorem acp_findNode_inv (s : Store) (n : Nat) (p : Point) (nd : NodeData)
    (hwf : WF s) (hn : findNode s n = some nd) {j : Nat} {w : NodeData}
    (h : findNode (addChildPoint s n p).1 j = some w) :
    (j = n ∧ w = { nd with children_ := nd.children_ ++ [s.next] }) ∨
    (j = s.next ∧ w = ⟨p, false, some n, [], none⟩) ∨
    (j ≠ n ∧ j ≠ s.next ∧ findNode s j = some w) := by
  by_cases hjn : j = n
  · subst hjn
    rw [acp_findNode_parent s _ p nd hwf hn] at h
    simp at h
    exact Or.inl ⟨rfl, h.symm⟩
  · by_cases hjc : j = s.next
    · subst hjc
      rw [acp_findNode_child s n p nd hwf hn] at h
      simp at h
      exact Or.inr (Or.inl ⟨rfl, h.symm⟩)
    · rw [acp_findNode_other s n p nd hwf hn hjn hjc] at h
      exact Or.inr (Or.inr ⟨hjn, hjc, h⟩)

theorem acp_adj_iff (s : Store) (n : Nat) (p : Point) (nd : NodeData)
    (hwf : WF s) (hn : findNode s n = some nd) (x y : Nat) :
    adjacent (addChildPoint s n p).1 x y ↔
      adjacent s x y ∨ (x = s.next ∧ y = n) ∨ (x = n ∧ y = s.next) := by
  constructor
  · rintro (⟨w, hf, hpar⟩ | ⟨w, hf, hpar⟩)
    · rcases acp_findNode_inv s n p nd hwf hn hf with
        ⟨hj, hw⟩ | ⟨hj, hw⟩ | ⟨hjn, hjc, hold⟩
      · subst hw
        rw [hj]
        exact Or.inl (Or.inl ⟨nd, hn, hpar⟩)
      · subst hw
        simp at hpar
        exact Or.inr (Or.inl ⟨hj, hpar.symm⟩)
      · exact Or.inl (Or.inl ⟨w, hold, hpar⟩)
    · rcases acp_findNode_inv s n p nd hwf hn hf with
        ⟨hj, hw⟩ | ⟨hj, hw⟩ | ⟨hjn, hjc, hold⟩
      · subst hw
        rw [hj]
        exact Or.inl (Or.inr ⟨nd, hn, hpar⟩)
      · subst hw
        simp at hpar
        exact Or.inr (Or.inr ⟨hpar.symm, hj⟩)
      · exact Or.inl (Or.inr ⟨w, hold, hpar⟩)
  · rintro ((⟨w, hf, hpar⟩ | ⟨w, hf, hpar⟩) | ⟨hx, hy⟩ | ⟨hx, hy⟩)
    · by_cases hxn : x = n
      · rw [hxn] at hf ⊢
        have hw : w = nd := by
          rw [hn] at hf
          exact (Option.some.injEq _ _ ▸ hf).symm
        rw [hw] at hpar
        exact Or.inl ⟨{ nd with children_ := nd.children_ ++ [s.next] },
          acp_findNode_parent s n p nd hwf hn, hpar⟩
      · have hxc : x ≠ s.next := by
          have := key_lt_of_findNode hwf hf
          omega
        exact Or.inl ⟨w, by
          rw [acp_findNode_other s n p nd hwf hn hxn hxc]
          exact hf, hpar⟩
    · by_cases hyn : y = n
      · rw [hyn] at hf ⊢
        have hw : w = nd := by
          rw [hn] at hf
          exact (Option.some.injEq _ _ ▸ hf).symm
        rw [hw] at hpar
        exact Or.inr ⟨{ nd with children_ := nd.children_ ++ [s.next] },
          acp_findNode_parent s n p nd hwf hn, hpar⟩
      · have hyc : y ≠ s.next := by
          have := key_lt_of_findNode hwf hf
          omega
        exact Or.inr ⟨w, by
          rw [acp_findNode_other s n p nd hwf hn hyn hyc]
          exact hf, hpar⟩
    · rw [hx, hy]
      exact Or.inl ⟨⟨p, false, some n, [], none⟩,
        acp_findNode_child s n p nd hwf hn, rfl⟩
    · rw [hx, hy]
      exact Or.inr ⟨⟨p, false, some n, [], none⟩,
        acp_findNode_child s n p nd hwf hn, rfl⟩

theorem acp_conn_proj (s : Store) (n : Nat) (p : Point) (nd : NodeData)
    (hwf : WF s) (hn : findNode s n = some nd) {x y : Nat}
    (hc : connectedIn (addChildPoint s n p).1 x y) :
    connectedIn s (if x = s.next then n else x) (if y = s.next then n else y)
    := by
  have hnlt : n < s.next := key_lt_of_findNode hwf hn
  induction hc with
  | refl => exact Relation.ReflTransGen.refl
  | @tail b c hxy hstep ih =>
    rcases (acp_adj_iff s n p nd hwf hn b c).mp hstep with
      hold | ⟨hb, hc'⟩ | ⟨hb, hc'⟩
    · have hbne : b ≠ s.next := by
        intro hb
        subst hb
        exact no_adj_fresh hwf s.next le_rfl hold
      have hcne : c ≠ s.next := by
        intro hc'
        subst hc'
        exact no_adj_fresh hwf s.next le_rfl (adjacent_symm hold)
      rw [if_neg hcne]
      rw [if_neg hbne] at ih
      exact Relation.ReflTransGen.tail ih hold
    · rw [hc', ite_self]
      rw [hb, if_pos rfl] at ih
      exact ih
    · rw [hc', if_pos rfl]
      rw [hb, ite_self] at ih
      exact ih

theorem WF_addChildPoint (s : Store) (n : Nat) (p : Point) (hwf : WF s) :
    WF (addChildPoint s n p).1 := by
  cases hn : findNode s n with
  | none =>
    simp only [addChildPoint, hn]
    exact hwf
  | some nd =>
    have hnlt : n < s.next := key_lt_of_findNode hwf hn
    have hnmem : (n, nd) ∈ s.nodes := mem_of_lookupId_eq_some s.nodes n nd hn
    have hnext : (addChildPoint s n p).1.next = s.next + 1 := by
      rw [acp_result s n p nd hn]
      rfl
    have hmem : ∀ e ∈ (addChildPoint s n p).1.nodes,
        e = (n, { nd with children_ := nd.children_ ++ [s.next] }) ∨
        (e ∈ s.nodes ∧ e.1 ≠ n) ∨
        e = (s.next, ⟨p, false, some n, [], none⟩) := by
      intro e he
      rw [acp_result s n p nd hn] at he
      rcases mem_setNode he with h | ⟨h, hne⟩
      · exact Or.inl h
      · simp only [List.mem_append, List.mem_singleton] at h
        rcases h with h | h
        · exact Or.inr (Or.inl ⟨h, hne⟩)
        · exact Or.inr (Or.inr h)
    have hcid_not_child : nd.children_.count s.next = 0 := by
      apply List.count_eq_zero.mpr
      intro hmem'
      obtain ⟨cd, hcd, -⟩ := hwf.childParent (n, nd) hnmem s.next hmem'
      rw [findNode_fresh_none s hwf.keysLt le_rfl] at hcd
      simp at hcd
    have hold_key_ne_cid : ∀ e ∈ s.nodes, e.1 ≠ s.next := by
      intro e he h
      have := hwf.keysLt e he
      omega
    have hcount_cid : ∀ k, k ≠ s.next → List.count k [s.next] = 0 := by
      intro k hk
      apply List.count_eq_zero.mpr
      simp
      omega
    have hrootIn' : ∀ r, isRootIn s r → isRootIn (addChildPoint s n p).1 r := by
      rintro r ⟨rd, hrd, hrp⟩
      by_cases hrn : r = n
      · have hrdnd : rd = nd := by
          rw [hrn, hn] at hrd
          exact (Option.some.injEq _ _ ▸ hrd).symm
        rw [hrn]
        refine ⟨{ nd with children_ := nd.children_ ++ [s.next] },
          acp_findNode_parent s n p nd hwf hn, ?_⟩
        show nd.parent_ = none
        rw [← hrdnd]
        exact hrp
      · have hrc : r ≠ s.next :=
          hold_key_ne_cid (r, rd) (mem_of_lookupId_eq_some s.nodes r rd hrd)
        exact ⟨rd, by
          rw [acp_findNode_other s n p nd hwf hn hrn hrc]
          exact hrd, hrp⟩
    have hadj_mono : ∀ x y, adjacent s x y →
        adjacent (addChildPoint s n p).1 x y :=
      fun x y h => (acp_adj_iff s n p nd hwf hn x y).mpr (Or.inl h)
    refine ⟨?_, ?_, ?_, ?_, ?_, ?_, ?_⟩
    · intro e he
      rw [hnext]
      rcases hmem e he with h | ⟨h, -⟩ | h
      · subst h
        simp only
        omega
      · have := hwf.keysLt e h
        omega
      · subst h
        simp only
        omega
    · rw [acp_result s n p nd hn]
      show ((setNode _ n _).nodes.map Prod.fst).Nodup
      rw [keys_setNode]
      simp only [List.map_append, List.map_singleton]
      apply List.Nodup.append hwf.keysNodup (List.nodup_singleton _)
      intro a ha hb
      simp only [List.mem_singleton] at hb
      subst hb
      obtain ⟨e, he, hfst⟩ := List.mem_map.mp ha
      exact hold_key_ne_cid e he hfst
    · intro e he
      rcases hmem e he with h | ⟨h, -⟩ | h
      · subst h
        exact hwf.rootFlag (n, nd) hnmem
      · exact hwf.rootFlag e h
      · subst h
        simp [isRootFlag]
    · intro e he q hq
      rcases hmem e he with h | ⟨h, hne⟩ | h
      · subst h
        obtain ⟨pd, hpd, hcount⟩ := hwf.parentChild (n, nd) hnmem q hq
        by_cases hqn : q = n
        · have hpdnd : pd = nd := by
            rw [hqn, hn] at hpd
            exact (Option.some.injEq _ _ ▸ hpd).symm
          rw [hpdnd] at hcount
          rw [hqn]
          refine ⟨{ nd with children_ := nd.children_ ++ [s.next] },
            acp_findNode_parent s n p nd hwf hn, ?_⟩
          simp only [List.count_append]
          rw [hcount, hcount_cid n (by omega)]
        · have hqc : q ≠ s.next :=
            hold_key_ne_cid (q, pd) (mem_of_lookupId_eq_some s.nodes q pd hpd)
          exact ⟨pd, by
            rw [acp_findNode_other s n p nd hwf hn hqn hqc]
            exact hpd, hcount⟩
      · obtain ⟨pd, hpd, hcount⟩ := hwf.parentChild e h q hq
        by_cases hqn : q = n
        · have hpdnd : pd = nd := by
            rw [hqn, hn] at hpd
            exact (Option.some.injEq _ _ ▸ hpd).symm
          rw [hpdnd] at hcount
          rw [hqn]
          refine ⟨{ nd with children_ := nd.children_ ++ [s.next] },
            acp_findNode_parent s n p nd hwf hn, ?_⟩
          simp only [List.count_append]
          rw [hcount, hcount_cid e.1 (hold_key_ne_cid e h)]
        · have hqc : q ≠ s.next :=
            hold_key_ne_cid (q, pd) (mem_of_lookupId_eq_some s.nodes q pd hpd)
          exact ⟨pd, by
            rw [acp_findNode_other s n p nd hwf hn hqn hqc]
            exact hpd, hcount⟩
      · subst h
        have hqn : q = n := by
          simp only at hq
          simp at hq
          exact hq.symm
        rw [hqn]
        refine ⟨{ nd with children_ := nd.children_ ++ [s.next] },
          acp_findNode_parent s n p nd hwf hn, ?_⟩
        simp only [List.count_append]
        rw [hcid_not_child]
        simp
    · intro e he c hc
      rcases hmem e he with h | ⟨h, hne⟩ | h
      · subst h
        simp only [List.mem_append, List.mem_singleton] at hc
        rcases hc with hc | hc
        · obtain ⟨cd, hcd, hcp⟩ := hwf.childParent (n, nd) hnmem c hc
          by_cases hcn : c = n
          · have hcdnd : cd = nd := by
              rw [hcn, hn] at hcd
              exact (Option.some.injEq _ _ ▸ hcd).symm
            rw [hcn]
            refine ⟨{ nd with children_ := nd.children_ ++ [s.next] },
              acp_findNode_parent s n p nd hwf hn, ?_⟩
            show nd.parent_ = some n
            rw [← hcdnd]
            exact hcp
          · have hcc : c ≠ s.next := hold_key_ne_cid (c, cd)
              (mem_of_lookupId_eq_some s.nodes c cd hcd)
            exact ⟨cd, by
              rw [acp_findNode_other s n p nd hwf hn hcn hcc]
              exact hcd, hcp⟩
        · subst hc
          exact ⟨⟨p, false, some n, [], none⟩,
            acp_findNode_child s n p nd hwf hn, rfl⟩
      · obtain ⟨cd, hcd, hcp⟩ := hwf.childParent e h c hc
        by_cases hcn : c = n
        · have hcdnd : cd = nd := by
            rw [hcn, hn] at hcd
            exact (Option.some.injEq _ _ ▸ hcd).symm
          rw [hcn]
          refine ⟨{ nd with children_ := nd.children_ ++ [s.next] },
            acp_findNode_parent s n p nd hwf hn, ?_⟩
          show nd.parent_ = some e.1
          rw [← hcdnd]
          exact hcp
        · have hcc : c ≠ s.next := hold_key_ne_cid (c, cd)
            (mem_of_lookupId_eq_some s.nodes c cd hcd)
          exact ⟨cd, by
            rw [acp_findNode_other s n p nd hwf hn hcn hcc]
            exact hcd, hcp⟩
      · subst h
        simp only at hc
        exact absurd hc (List.not_mem_nil c)
    · intro i j hi hj hc
      have hcidroot : ¬ isRootIn (addChildPoint s n p).1 s.next := by
        rintro ⟨w, hf, hp⟩
        rw [acp_findNode_child s n p nd hwf hn] at hf
        have hw : w = ⟨p, false, some n, [], none⟩ :=
          (Option.some.injEq _ _ ▸ hf).symm
        rw [hw] at hp
        simp at hp
      have hine : i ≠ s.next := fun h => hcidroot (h ▸ hi)
      have hjne : j ≠ s.next := fun h => hcidroot (h ▸ hj)
      have htrans : ∀ k, k ≠ s.next → isRootIn (addChildPoint s n p).1 k →
          isRootIn s k := by
        rintro k hk ⟨w, hf, hp⟩
        rcases acp_findNode_inv s n p nd hwf hn hf with
          ⟨hj', hw⟩ | ⟨hj', hw⟩ | ⟨-, -, hold⟩
        · rw [hw] at hp
          rw [hj']
          exact ⟨nd, hn, hp⟩
        · exact absurd hj' hk
        · exact ⟨w, hold, hp⟩
      have hcs := acp_conn_proj s n p nd hwf hn hc
      rw [if_neg hine, if_neg hjne] at hcs
      exact hwf.rootUnique i j (htrans i hine hi) (htrans j hjne hj) hcs
    · intro e he
      rcases hmem e he with h | ⟨h, -⟩ | h
      · subst h
        obtain ⟨r, hr, hcr⟩ := hwf.rootExists (n, nd) hnmem
        exact ⟨r, hrootIn' r hr, connectedIn_mono hadj_mono hcr⟩
      · obtain ⟨r, hr, hcr⟩ := hwf.rootExists e h
        exact ⟨r, hrootIn' r hr, connectedIn_mono hadj_mono hcr⟩
      · subst h
        obtain ⟨r, hr, hcr⟩ := hwf.rootExists (n, nd) hnmem
        refine ⟨r, hrootIn' r hr, ?_⟩
        refine Relation.ReflTransGen.head ?_ (connectedIn_mono hadj_mono hcr)
        exact Or.inl ⟨⟨p, false, some n, [], none⟩,
          acp_findNode_child s n p nd hwf hn, rfl⟩

/-!
Characterisation of `addChildNode s n c` when both nodes exist.
-/

theorem acn_result (s : Store) (n c : Nat) (nd cd : NodeData)
    (hn : findNode s n = some nd) (hc : findNode s c = some cd) :
    addChildNode s n c =
      (setNode (setNode s n { nd with children_ := nd.children_ ++ [c] }) c
        { cd with parent_ := some n, is_root_ := false }, c) := by
  simp [addChildNode, hn, hc]

theorem acn_findNode_n (s : Store) (n c : Nat) (nd cd : NodeData)
    (hn : findNode s n = some nd) (hc : findNode s c = some cd)
    (hne : n ≠ c) :
    findNode (addChildNode s n c).1 n =
      some { nd with children_ := nd.children_ ++ [c] } := by
  rw [acn_result s n c nd cd hn hc]
  rw [findNode_setNode_ne _ _ _ _ hne]
  exact findNode_setNode_self _ n _ nd hn

theorem acn_findNode_c (s : Store) (n c : Nat) (nd cd : NodeData)
    (hn : findNode s n = some nd) (hc : findNode s c = some cd)
    (hne : n ≠ c) :
    findNode (addChildNode s n c).1 c =
      some { cd with parent_ := some n, is_root_ := false } := by
  rw [acn_result s n c nd cd hn hc]
  apply findNode_setNode_self
  rw [findNode_setNode_ne _ _ _ _ fun h => hne h.symm]
  exact hc

theorem acn_findNode_other (s : Store) (n c : Nat) (nd cd : NodeData)
    (hn : findNode s n = some nd) (hc : findNode s c = some cd)
    {j : Nat} (hjn : j ≠ n) (hjc : j ≠ c) :
    findNode (addChildNode s n c).1 j = findNode s j := by
  rw [acn_result s n c nd cd hn hc]
  rw [findNode_setNode_ne _ _ _ _ hjc, findNode_setNode_ne _ _ _ _ hjn]

theorem acn_findNode_inv (s : Store) (n c : Nat) (nd cd : NodeData)
    (hn : findNode s n = some nd) (hc : findNode s c = some cd)
    (hne : n ≠ c) {j : Nat} {w : NodeData}
    (h : findNode (addChildNode s n c).1 j = some w) :
    (j = n ∧ w = { nd with children_ := nd.children_ ++ [c] }) ∨
    (j = c ∧ w = { cd with parent_ := some n, is_root_ := false }) ∨
    (j ≠ n ∧ j ≠ c ∧ findNode s j = some w) := by
  by_cases hjn : j = n
  · rw [hjn, acn_findNode_n s n c nd cd hn hc hne] at h
    exact Or.inl ⟨hjn, (Option.some.injEq _ _ ▸ h).symm⟩
  · by_cases hjc : j = c
    · rw [hjc, acn_findNode_c s n c nd cd hn hc hne] at h
      exact Or.inr (Or.inl ⟨hjc, (Option.some.injEq _ _ ▸ h).symm⟩)
    · rw [acn_findNode_other s n c nd cd hn hc hjn hjc] at h
      exact Or.inr (Or.inr ⟨hjn, hjc, h⟩)

theorem acn_adj_iff (s : Store) (n c : Nat) (nd cd : NodeData)
    (hn : findNode s n = some nd) (hc : findNode s c = some cd)
    (hne : n ≠ c) (hroot : cd.parent_ = none) (x y : Nat) :
    adjacent (addChildNode s n c).1 x y ↔
      adjacent s x y ∨ (x = c ∧ y = n) ∨ (x = n ∧ y = c) := by
  constructor
  · rintro (⟨w, hf, hpar⟩ | ⟨w, hf, hpar⟩)
    · rcases acn_findNode_inv s n c nd cd hn hc hne hf with
        ⟨hj, hw⟩ | ⟨hj, hw⟩ | ⟨-, -, hold⟩
      · rw [hw] at hpar
        rw [hj]
        exact Or.inl (Or.inl ⟨nd, hn, hpar⟩)
      · rw [hw] at hpar
        simp at hpar
        exact Or.inr (Or.inl ⟨hj, hpar.symm⟩)
      · exact Or.inl (Or.inl ⟨w, hold, hpar⟩)
    · rcases acn_findNode_inv s n c nd cd hn hc hne hf with
        ⟨hj, hw⟩ | ⟨hj, hw⟩ | ⟨-, -, hold⟩
      · rw [hw] at hpar
        rw [hj]
        exact Or.inl (Or.inr ⟨nd, hn, hpar⟩)
      · rw [hw] at hpar
        simp at hpar
        exact Or.inr (Or.inr ⟨hpar.symm, hj⟩)
      · exact Or.inl (Or.inr ⟨w, hold, hpar⟩)
  · rintro ((⟨w, hf, hpar⟩ | ⟨w, hf, hpar⟩) | ⟨hx, hy⟩ | ⟨hx, hy⟩)
    · by_cases hxn : x = n
      · have hw : w = nd := by
          rw [hxn, hn] at hf
          exact (Option.some.injEq _ _ ▸ hf).symm
        rw [hw] at hpar
        rw [hxn]
        exact Or.inl ⟨{ nd with children_ := nd.children_ ++ [c] },
          acn_findNode_n s n c nd cd hn hc hne, hpar⟩
      · by_cases hxc : x = c
        · have hw : w = cd := by
            rw [hxc, hc] at hf
            exact (Option.some.injEq _ _ ▸ hf).symm
          rw [hw, hroot] at hpar
          simp at hpar
        · exact Or.inl ⟨w, by
            rw [acn_findNode_other s n c nd cd hn hc hxn hxc]
            exact hf, hpar⟩
    · by_cases hyn : y = n
      · have hw : w = nd := by
          rw [hyn, hn] at hf
          exact (Option.some.injEq _ _ ▸ hf).symm
        rw [hw] at hpar
        rw [hyn]
        exact Or.inr ⟨{ nd with children_ := nd.children_ ++ [c] },
          acn_findNode_n s n c nd cd hn hc hne, hpar⟩
      · by_cases hyc : y = c
        · have hw : w = cd := by
            rw [hyc, hc] at hf
            exact (Option.some.injEq _ _ ▸ hf).symm
          rw [hw, hroot] at hpar
          simp at hpar
        · exact Or.inr ⟨w, by
            rw [acn_findNode_other s n c nd cd hn hc hyn hyc]
            exact hf, hpar⟩
    · rw [hx, hy]
      exact Or.inl ⟨{ cd with parent_ := some n, is_root_ := false },
        acn_findNode_c s n c nd cd hn hc hne, rfl⟩
    · rw [hx, hy]
      exact Or.inr ⟨{ cd with parent_ := some n, is_root_ := false },
        acn_findNode_c s n c nd cd hn hc hne, rfl⟩

theorem acn_conn_cross (s : Store) (n c : Nat) (nd cd : NodeData)
    (hn : findNode s n = some nd) (hc : findNode s c = some cd)
    (hne : n ≠ c) (hroot : cd.parent_ = none)
    (hnotconn : ¬ connectedIn s n c) {x y : Nat}
    (hconn : connectedIn (addChildNode s n c).1 x y) :
    connectedIn s x y ∨
    (connectedIn s x n ∧ connectedIn s c y) ∨
    (connectedIn s x c ∧ connectedIn s n y) := by
  induction hconn with
  | refl => exact Or.inl Relation.ReflTransGen.refl
  | @tail b c' hxb hstep ih =>
    rcases (acn_adj_iff s n c nd cd hn hc hne hroot b c').mp hstep with
      hold | ⟨hb, hc'⟩ | ⟨hb, hc'⟩
    · rcases ih with h | ⟨h1, h2⟩ | ⟨h1, h2⟩
      · exact Or.inl (Relation.ReflTransGen.tail h hold)
      · exact Or.inr (Or.inl ⟨h1, Relation.ReflTransGen.tail h2 hold⟩)
      · exact Or.inr (Or.inr ⟨h1, Relation.ReflTransGen.tail h2 hold⟩)
    · rw [hb] at ih
      rw [hc']
      rcases ih with h | ⟨h1, h2⟩ | ⟨h1, h2⟩
      · exact Or.inr (Or.inr ⟨h, Relation.ReflTransGen.refl⟩)
      · exact Or.inl h1
      · exact absurd h2 hnotconn
    · rw [hb] at ih
      rw [hc']
      rcases ih with h | ⟨h1, h2⟩ | ⟨h1, h2⟩
      · exact Or.inr (Or.inl ⟨h, Relation.ReflTransGen.refl⟩)
      · exact absurd (connectedIn_symm h2) hnotconn
      · exact Or.inl h1

theorem WF_addChildNode (s : Store) (n c : Nat) (nd cd : NodeData)
    (hwf : WF s) (hn : findNode s n = some nd) (hc : findNode s c = some cd)
    (hne : n ≠ c) (hroot : cd.parent_ = none)
    (hfree : ∀ e ∈ s.nodes, c ∉ e.2.children_)
    (hnotconn : ¬ connectedIn s n c) : WF (addChildNode s n c).1 := by
  have hnmem : (n, nd) ∈ s.nodes := mem_of_lookupId_eq_some s.nodes n nd hn
  have hcmem : (c, cd) ∈ s.nodes := mem_of_lookupId_eq_some s.nodes c cd hc
  have hnext : (addChildNode s n c).1.next = s.next := by
    rw [acn_result s n c nd cd hn hc]
    rfl
  have hkeys : (addChildNode s n c).1.nodes.map Prod.fst =
      s.nodes.map Prod.fst := by
    rw [acn_result s n c nd cd hn hc]
    show ((setNode _ c _).nodes.map Prod.fst) = _
    rw [keys_setNode, keys_setNode]
  have hmem : ∀ e ∈ (addChildNode s n c).1.nodes,
      e = (c, { cd with parent_ := some n, is_root_ := false }) ∨
      (e = (n, { nd with children_ := nd.children_ ++ [c] }) ∧ n ≠ c) ∨
      (e ∈ s.nodes ∧ e.1 ≠ c ∧ e.1 ≠ n) := by
    intro e he
    rw [acn_result s n c nd cd hn hc] at he
    rcases mem_setNode he with h | ⟨h, hnec⟩
    · exact Or.inl h
    · rcases mem_setNode h with h' | ⟨h', hnen⟩
      · exact Or.inr (Or.inl ⟨h', hne⟩)
      · exact Or.inr (Or.inr ⟨h', hnec, hnen⟩)
  have hc_not_in_nd : nd.children_.count c = 0 :=
    List.count_eq_zero.mpr (hfree (n, nd) hnmem)
  have hrootIn' : ∀ r, r ≠ c → isRootIn s r →
      isRootIn (addChildNode s n c).1 r := by
    rintro r hrc ⟨rd, hrd, hrp⟩
    by_cases hrn : r = n
    · have hrdnd : rd = nd := by
        rw [hrn, hn] at hrd
        exact (Option.some.injEq _ _ ▸ hrd).symm
      rw [hrn]
      refine ⟨{ nd with children_ := nd.children_ ++ [c] },
        acn_findNode_n s n c nd cd hn hc hne, ?_⟩
      show nd.parent_ = none
      rw [← hrdnd]
      exact hrp
    · exact ⟨rd, by
        rw [acn_findNode_other s n c nd cd hn hc hrn hrc]
        exact hrd, hrp⟩
  have hadj_mono : ∀ x y, adjacent s x y →
      adjacent (addChildNode s n c).1 x y :=
    fun x y h => (acn_adj_iff s n c nd cd hn hc hne hroot x y).mpr (Or.inl h)
  refine ⟨?_, ?_, ?_, ?_, ?_, ?_, ?_⟩
  · intro e he
    rw [hnext]
    rcases hmem e he with h | ⟨h, -⟩ | ⟨h, -⟩
    · subst h
      exact hwf.keysLt (c, cd) hcmem
    · subst h
      exact hwf.keysLt (n, nd) hnmem
    · exact hwf.keysLt e h
  · rw [hkeys]
    exact hwf.keysNodup
  · intro e he
    rcases hmem e he with h | ⟨h, -⟩ | ⟨h, -⟩
    · subst h
      simp [isRootFlag]
    · subst h
      exact hwf.rootFlag (n, nd) hnmem
    · exact hwf.rootFlag e h
  · intro e he q hq
    rcases hmem e he with h | ⟨h, -⟩ | ⟨h, hec, hen⟩
    · subst h
      have hqn : q = n := by
        simp only at hq
        simp at hq
        exact hq.symm
      rw [hqn]
      refine ⟨{ nd with children_ := nd.children_ ++ [c] },
        acn_findNode_n s n c nd cd hn hc hne, ?_⟩
      simp only [List.count_append]
      rw [hc_not_in_nd]
      simp
    · subst h
      obtain ⟨pd, hpd, hcount⟩ := hwf.parentChild (n, nd) hnmem q hq
      by_cases hqc : q = c
      · have hpdcd : pd = cd := by
          rw [hqc, hc] at hpd
          exact (Option.some.injEq _ _ ▸ hpd).symm
        rw [hpdcd] at hcount
        rw [hqc]
        exact ⟨{ cd with parent_ := some n, is_root_ := false },
          acn_findNode_c s n c nd cd hn hc hne, hcount⟩
      · by_cases hqn : q = n
        · have hpdnd : pd = nd := by
            rw [hqn, hn] at hpd
            exact (Option.some.injEq _ _ ▸ hpd).symm
          rw [hpdnd] at hcount
          rw [hqn]
          refine ⟨{ nd with children_ := nd.children_ ++ [c] },
            acn_findNode_n s n c nd cd hn hc hne, ?_⟩
          simp only [List.count_append]
          rw [hcount]
          have : List.count n [c] = 0 := by
            apply List.count_eq_zero.mpr
            simp
            exact hne
          omega
        · exact ⟨pd, by
            rw [acn_findNode_other s n c nd cd hn hc hqn hqc]
            exact hpd, hcount⟩
    · obtain ⟨pd, hpd, hcount⟩ := hwf.parentChild e h q hq
      by_cases hqc : q = c
      · have hpdcd : pd = cd := by
          rw [hqc, hc] at hpd
          exact (Option.some.injEq _ _ ▸ hpd).symm
        rw [hpdcd] at hcount
        rw [hqc]
        exact ⟨{ cd with parent_ := some n, is_root_ := false },
          acn_findNode_c s n c nd cd hn hc hne, hcount⟩
      · by_cases hqn : q = n
        · have hpdnd : pd = nd := by
            rw [hqn, hn] at hpd
            exact (Option.some.injEq _ _ ▸ hpd).symm
          rw [hpdnd] at hcount
          rw [hqn]
          refine ⟨{ nd with children_ := nd.children_ ++ [c] },
            acn_findNode_n s n c nd cd hn hc hne, ?_⟩
          simp only [List.count_append]
          rw [hcount]
          have : List.count e.1 [c] = 0 := by
            apply List.count_eq_zero.mpr
            simp
            exact hec
          omega
        · exact ⟨pd, by
            rw [acn_findNode_other s n c nd cd hn hc hqn hqc]
            exact hpd, hcount⟩
  · intro e he x hx
    rcases hmem e he with h | ⟨h, -⟩ | ⟨h, hec, hen⟩
    · subst h
      simp only at hx
      obtain ⟨xd, hxd, hxp⟩ := hwf.childParent (c, cd) hcmem x hx
      by_cases hxc : x = c
      · have hxdcd : xd = cd := by
          rw [hxc, hc] at hxd
          exact (Option.some.injEq _ _ ▸ hxd).symm
        rw [hxdcd, hroot] at hxp
        simp at hxp
      · by_cases hxn : x = n
        · have hxdnd : xd = nd := by
            rw [hxn, hn] at hxd
            exact (Option.some.injEq _ _ ▸ hxd).symm
          rw [hxn]
          refine ⟨{ nd with children_ := nd.children_ ++ [c] },
            acn_findNode_n s n c nd cd hn hc hne, ?_⟩
          show nd.parent_ = some c
          rw [← hxdnd]
          exact hxp
        · exact ⟨xd, by
            rw [acn_findNode_other s n c nd cd hn hc hxn hxc]
            exact hxd, hxp⟩
    · subst h
      simp only [List.mem_append, List.mem_singleton] at hx
      rcases hx with hx | hx
      · obtain ⟨xd, hxd, hxp⟩ := hwf.childParent (n, nd) hnmem x hx
        by_cases hxc : x = c
        · rw [hxc] at hx
          exact absurd hx (hfree (n, nd) hnmem)
        · by_cases hxn : x = n
          · have hxdnd : xd = nd := by
              rw [hxn, hn] at hxd
              exact (Option.some.injEq _ _ ▸ hxd).symm
            rw [hxn]
            refine ⟨{ nd with children_ := nd.children_ ++ [c] },
              acn_findNode_n s n c nd cd hn hc hne, ?_⟩
            show nd.parent_ = some n
            rw [← hxdnd]
            exact hxp
          · exact ⟨xd, by
              rw [acn_findNode_other s n c nd cd hn hc hxn hxc]
              exact hxd, hxp⟩
      · rw [hx]
        exact ⟨{ cd with parent_ := some n, is_root_ := false },
          acn_findNode_c s n c nd cd hn hc hne, rfl⟩
    · obtain ⟨xd, hxd, hxp⟩ := hwf.childParent e h x hx
      by_cases hxc : x = c
      · rw [hxc] at hx
        exact absurd hx (hfree e h)
      · by_cases hxn : x = n
        · have hxdnd : xd = nd := by
            rw [hxn, hn] at hxd
            exact (Option.some.injEq _ _ ▸ hxd).symm
          rw [hxn]
          refine ⟨{ nd with children_ := nd.children_ ++ [c] },
            acn_findNode_n s n c nd cd hn hc hne, ?_⟩
          show nd.parent_ = some e.1
          rw [← hxdnd]
          exact hxp
        · exact ⟨xd, by
            rw [acn_findNode_other s n c nd cd hn hc hxn hxc]
            exact hxd, hxp⟩
  · intro i j hi hj hconn
    have hcroot : ¬ isRootIn (addChildNode s n c).1 c := by
      rintro ⟨w, hf, hp⟩
      rw [acn_findNode_c s n c nd cd hn hc hne] at hf
      have hw : w = { cd with parent_ := some n, is_root_ := false } :=
        (Option.some.injEq _ _ ▸ hf).symm
      rw [hw] at hp
      simp at hp
    have hine : i ≠ c := fun h => hcroot (h ▸ hi)
    have hjne : j ≠ c := fun h => hcroot (h ▸ hj)
    have htrans : ∀ k, k ≠ c → isRootIn (addChildNode s n c).1 k →
        isRootIn s k := by
      rintro k hk ⟨w, hf, hp⟩
      rcases acn_findNode_inv s n c nd cd hn hc hne hf with
        ⟨hj', hw⟩ | ⟨hj', hw⟩ | ⟨-, -, hold⟩
      · rw [hw] at hp
        rw [hj']
        exact ⟨nd, hn, hp⟩
      · exact absurd hj' hk
      · exact ⟨w, hold, hp⟩
    have hcroot_s : isRootIn s c := ⟨cd, hc, hroot⟩
    have hi' := htrans i hine hi
    have hj' := htrans j hjne hj
    rcases acn_conn_cross s n c nd cd hn hc hne hroot hnotconn hconn with
      h | ⟨h1, h2⟩ | ⟨h1, h2⟩
    · exact hwf.rootUnique i j hi' hj' h
    · exact absurd (hwf.rootUnique j c hj'
        hcroot_s (connectedIn_symm h2)) hjne
    · exact absurd (hwf.rootUnique i c hi' hcroot_s h1) hine
  · intro e he
    have hreroute : ∀ x, connectedIn s x c →
        ∃ r, isRootIn (addChildNode s n c).1 r ∧
          connectedIn (addChildNode s n c).1 x r := by
      intro x hxc
      obtain ⟨r, hr, hcr⟩ := hwf.rootExists (n, nd) hnmem
      have hrc : r ≠ c := by
        intro hrc
        rw [hrc] at hcr
        exact hnotconn hcr
      refine ⟨r, hrootIn' r hrc hr, ?_⟩
      refine Relation.ReflTransGen.trans (connectedIn_mono hadj_mono hxc) ?_
      refine Relation.ReflTransGen.head ?_ (connectedIn_mono hadj_mono hcr)
      exact (acn_adj_iff s n c nd cd hn hc hne hroot c n).mpr
        (Or.inr (Or.inl ⟨rfl, rfl⟩))
    have hwit : ∀ x, (∃ r₀, isRootIn s r₀ ∧ connectedIn s x r₀) →
        ∃ r, isRootIn (addChildNode s n c).1 r ∧
          connectedIn (addChildNode s n c).1 x r := by
      rintro x ⟨r₀, hr₀, hcr₀⟩
      by_cases hr₀c : r₀ = c
      · rw [hr₀c] at hcr₀
        exact hreroute x hcr₀
      · exact ⟨r₀, hrootIn' r₀ hr₀c hr₀,
          connectedIn_mono hadj_mono hcr₀⟩
    rcases hmem e he with h | ⟨h, -⟩ | ⟨h, -, -⟩
    · subst h
      exact hwit c (hwf.rootExists (c, cd) hcmem)
    · subst h
      exact hwit n (hwf.rootExists (n, nd) hnmem)
    · exact hwit e.1 (hwf.rootExists e h)

theorem no_adj_two_roots :
    ∀ x y, ¬ adjacent ⟨[(0, ⟨⟨0, 0⟩, true, none, [], none⟩),
      (1, ⟨⟨5, 5⟩, true, none, [], none⟩)], 2⟩ x y := by
  have hnone : ∀ z nd, findNode ⟨[(0, ⟨⟨0, 0⟩, true, none, [], none⟩),
      (1, ⟨⟨5, 5⟩, true, none, [], none⟩)], 2⟩ z = some nd →
      nd.parent_ = none := by
    intro z nd hf
    simp only [findNode, lookupId] at hf
    split_ifs at hf <;> cases hf <;> rfl
  rintro x y (⟨nd, hf, hp⟩ | ⟨nd, hf, hp⟩) <;>
    rw [hnone _ _ hf] at hp <;> cases hp

theorem WF_two_roots :
    WF ⟨[(0, ⟨⟨0, 0⟩, true, none, [], none⟩),
      (1, ⟨⟨5, 5⟩, true, none, [], none⟩)], 2⟩ := by
  refine ⟨by decide, by decide, by decide, ?_, ?_, ?_, ?_⟩
  · intro e he p hp
    simp at he
    rcases he with rfl | rfl <;> simp at hp
  · intro e he c hc
    simp at he
    rcases he with rfl | rfl <;> simp at hc
  · intro i j hi hj hc
    exact connectedIn_eq_of_no_adj no_adj_two_roots hc
  · intro e he
    simp at he
    rcases he with rfl | rfl
    · exact ⟨0, ⟨⟨⟨0, 0⟩, true, none, [], none⟩, by decide, rfl⟩,
        Relation.ReflTransGen.refl⟩
    · exact ⟨1, ⟨⟨⟨5, 5⟩, true, none, [], none⟩, by decide, rfl⟩,
        Relation.ReflTransGen.refl⟩

theorem WF_empty : WF ⟨[], 0⟩ := by
  refine ⟨by decide, by decide, by decide, ?_, ?_, ?_, ?_⟩
  · intro e he
    simp at he
  · intro e he
    simp at he
  · intro i j hi hj hc
    obtain ⟨nd, hf, -⟩ := hi
    simp [findNode, lookupId] at hf
  · intro e he
    simp at he

/-- C9: the well-formedness invariants of the node structure — `isRoot()`
reports exactly the absence of a parent link, every non-root node appears
exactly once in its parent's children sequence (and children point back at
their parent), and each connected tree has exactly one root — are preserved
by every store operation: creating a root node, creating and attaching a
child at a point, and attaching an existing unattached root as a child. -/
theorem C9_wellformedness_preserved :
    (∀ (s : Store) (p : Point) (g : Option Point),
      WF s → WF (makeRoot s p g).1) ∧
    (∀ (s : Store) (n : Nat) (p : Point),
      WF s → WF (addChildPoint s n p).1) ∧
    (∀ (s : Store) (n c : Nat) (nd cd : NodeData), WF s →
      findNode s n = some nd → findNode s c = some cd → n ≠ c →
      cd.parent_ = none → (∀ e ∈ s.nodes, c ∉ e.2.children_) →
      ¬ connectedIn s n c → WF (addChildNode s n c).1) :=
  ⟨fun s p g h => WF_makeRoot s p g h,
   fun s n p h => WF_addChildPoint s n p h,
   fun s n c nd cd h hn hc hne hroot hfree hconn =>
     WF_addChildNode s n c nd cd h hn hc hne hroot hfree hconn⟩

/-- Witness for C9: the empty store and a two-root store are well-formed,
and each of the three operations applied to them keeps well-formedness. -/
theorem C9_wellformedness_preserved_witness :
    WF (makeRoot ⟨[], 0⟩ ⟨0, 0⟩ none).1 ∧
    WF (addChildPoint ⟨[(0, ⟨⟨0, 0⟩, true, none, [], none⟩),
      (1, ⟨⟨5, 5⟩, true, none, [], none⟩)], 2⟩ 0 ⟨2, 3⟩).1 ∧
    WF (addChildNode ⟨[(0, ⟨⟨0, 0⟩, true, none, [], none⟩),
      (1, ⟨⟨5, 5⟩, true, none, [], none⟩)], 2⟩ 0 1).1 :=
  ⟨C9_wellformedness_preserved.1 ⟨[], 0⟩ ⟨0, 0⟩ none WF_empty,
   C9_wellformedness_preserved.2.1 _ 0 ⟨2, 3⟩ WF_two_roots,
   C9_wellformedness_preserved.2.2 _ 0 1
     ⟨⟨0, 0⟩, true, none, [], none⟩ ⟨⟨5, 5⟩, true, none, [], none⟩
     WF_two_roots (by decide) (by decide) (by decide) (by decide)
     (by decide)
     (fun h => by
       have := connectedIn_eq_of_no_adj no_adj_two_roots h
       omega)⟩

end Lightning
